import Mathlib

/-!
# gotestspace: workspace lifecycle and script execution

A shallow embedding of `testspace.go`: the `workSpace` methods (`Cleanup`, `GetPath`, the
accessors, `Execute`, `ExecuteWithStdin`), `Create` and `initGitWorkspace`.

* Go strings are Lean `String`s. The path functions only ever inspect the bytes `/` and `.`,
  which are single-byte characters, so reading characters instead of bytes changes nothing.
* Methods with a pointer receiver take the workspace and return the workspace they leave behind.
* Everything outside the process is explicit state: `World` holds a file system and the trace of
  the calls that left the process, in order.
* `SimpleExecuteCommand`, `NewTestSpaceCommand` and `runtime.Caller` are not part of
  `testspace.go`; what they return is a parameter (`Runner`, `Starter`, `caller`), so every
  theorem below holds whatever a script prints, does to the file system, or exits with.
* The operating system behind `os.Stat`, `os.MkdirAll` and `os.RemoveAll` is a parameter too
  (`System`): the theorems hold for every system, and where one needs the documented contract
  of `os.RemoveAll` it says so in a hypothesis.
* `path.Clean`, `path.Join`, `filepath.Dir`, `strings.HasPrefix` follow the Go standard library
  on a Unix system, where `filepath.Clean` and `path.Clean` are the same function.
-/

namespace testspace

/-! ## Go values -/

/-- Go `error` values; `Option Error` is an `error` that may be `nil`. -/
abbrev Error := String

/-- The `context.Context` values the package builds. -/
inductive Context where
  | Background
  | WithCancel (parent : Context)
  | WithTimeout (parent : Context) (nanoseconds : Nat)
  deriving DecidableEq, Repr

/-- Go `time.Second`, in nanoseconds. -/
def time.Second : Nat := 1000000000

/-! ## `path`, `path/filepath`, `strings` -/

/-- The inner loop of the `..` case of `Clean`,
`for out.w > dotdot && out.index(out.w) != '/' { out.w-- }`.
The buffer is the list of written bytes, most recent first, so its length is `out.w`;
`last` is the byte at index `out.w`, the one removed last. -/
def backtrackLoop (dotdot : Nat) (last : Char) : List Char → List Char
  | [] => []
  | c :: rest =>
    if (c :: rest).length > dotdot ∧ last ≠ '/' then backtrackLoop dotdot c rest
    else c :: rest

/-- The `can backtrack` branch: `out.w--`, then the inner loop. -/
def backtrack (dotdot : Nat) : List Char → List Char
  | [] => []
  | c :: rest => backtrackLoop dotdot c rest

/-- The test `r == n || path[r] == '/'` on the unread input `path[r:]`. -/
def atSep : List Char → Bool
  | [] => true
  | c :: _ => c == '/'

/-- The main loop of `Clean`, `for r < n { switch { ... } }`, on the unread input `path[r:]`,
the written bytes `out` (most recent first) and the index `dotdot`.
Every iteration reads at least one byte, so `fuel = len(path)` iterations are enough
(`cleanLoop_fuel`). -/
def cleanLoop (rooted : Bool) : Nat → List Char → List Char → Nat → List Char
  | 0, _, out, _ => out
  | _ + 1, [], out, _ => out
  | fuel + 1, c :: t, out, dotdot =>
    if c = '/' then
      -- empty path element
      cleanLoop rooted fuel t out dotdot
    else if c = '.' ∧ atSep t then
      -- . element
      cleanLoop rooted fuel t out dotdot
    else if c = '.' ∧ t.head? = some '.' ∧ atSep (t.drop 1) then
      -- .. element: remove to last /
      if out.length > dotdot then
        cleanLoop rooted fuel (t.drop 1) (backtrack dotdot out) dotdot
      else if !rooted then
        let out1 := if out.length > 0 then '/' :: out else out
        let out2 := '.' :: '.' :: out1
        cleanLoop rooted fuel (t.drop 1) out2 out2.length
      else
        cleanLoop rooted fuel (t.drop 1) out dotdot
    else
      -- real path element: add slash if needed, copy element
      let out1 :=
        if (rooted ∧ out.length ≠ 1) ∨ (!rooted ∧ out.length ≠ 0) then '/' :: out else out
      cleanLoop rooted fuel ((c :: t).dropWhile (· ≠ '/'))
        (((c :: t).takeWhile (· ≠ '/')).reverse ++ out1) dotdot

/-- Go `path.Clean` on the bytes of the path. -/
def cleanChars (p : List Char) : List Char :=
  match p with
  | [] => ['.']
  | c :: t =>
    let rooted : Bool := c == '/'
    let out :=
      if rooted then cleanLoop rooted p.length t ['/'] 1
      else cleanLoop rooted p.length p [] 0
    -- Turn empty string into "."
    if out.length = 0 then ['.'] else out.reverse

/-- Go `path.Clean`. -/
def path.Clean (p : String) : String := ⟨cleanChars p.data⟩

/-- Go `filepath.Clean` on Unix: no volume name, separator `/`. -/
def filepath.Clean (p : String) : String := path.Clean p

/-- The loop of `path.Join` that builds `buf`: empty elements are skipped, the others are
separated by `/`. -/
def joinBuf : List Char → List String → List Char
  | buf, [] => buf
  | buf, e :: es =>
    if buf.length > 0 ∨ e ≠ "" then
      joinBuf ((if buf.length > 0 then buf ++ ['/'] else buf) ++ e.data) es
    else joinBuf buf es

/-- Go `path.Join(elem...)`. -/
def path.Join (elems : List String) : String :=
  let size := (elems.map String.length).sum
  if size = 0 then "" else path.Clean ⟨joinBuf [] elems⟩

/-- Go `filepath.Dir` on Unix: `Clean(path[:i+1])` for the last separator `path[i]`. -/
def filepath.Dir (p : String) : String :=
  path.Clean ⟨(p.data.reverse.dropWhile (· ≠ '/')).reverse⟩

/-- Go `strings.HasPrefix`. -/
def strings.HasPrefix (s pre : String) : Bool := pre.data.isPrefixOf s.data

/-! ## The world outside the process -/

/-- The state of the file system: the names of the entries that exist, and the names the
system refuses to change. How a name is resolved to an entry is for the `System` to say. -/
structure FileSystem where
  entries : List String
  denied : List String
  deriving DecidableEq, Repr

/-- The operating system under the process, as `testspace.go` reaches it through the `os`
package. It is not part of the repository, so what it answers is a parameter: `stat` is
`os.Stat` (only its error is used), `mkdirAll` is `os.MkdirAll`, `removeAll` is what
`os.RemoveAll` does once its two guards on the name have passed (see `os.RemoveAll`), and
`isNotExist` is `os.IsNotExist` on the errors of this system. -/
structure System where
  stat : FileSystem → String → Option Error
  mkdirAll : FileSystem → String → Nat → FileSystem × Option Error
  removeAll : FileSystem → String → FileSystem × Option Error
  isNotExist : Error → Bool

/-- The name `name` is `root` itself or `root`, a `/`, and more (for the root `/`: it starts
with `/`). -/
def beneath (root name : String) : Bool :=
  name == root || ((if root == "/" then root else root ++ "/").data.isPrefixOf name.data)

/-- The guard of `os.RemoveAll`: the path is `.` or ends in `/.`. -/
def endsWithDot (p : String) : Bool :=
  p == "." || ['.', '/'].isPrefixOf p.data.reverse

/-- A command line handed to `SimpleExecuteCommand(ctx, dir, env, name, arg...)`. -/
structure Invocation where
  ctx : Context
  dir : String
  env : List String
  name : String
  args : List String
  deriving DecidableEq, Repr

/-- What `SimpleExecuteCommand` returns: `(stdout, stderr, error)`. -/
structure ExecResult where
  stdout : String
  stderr : String
  err : Option Error
  deriving DecidableEq, Repr

/-- The arguments of `NewTestSpaceCommand(ctx, dir, env, enableStdin, nil, nil, name, arg...)`;
the two writers `testspace.go` passes are always `nil`. -/
structure Spawn where
  ctx : Context
  dir : String
  env : List String
  enableStdin : Bool
  writers : Option Unit × Option Unit
  name : String
  args : List String
  deriving DecidableEq, Repr

/-- The calls that leave the process. -/
inductive Event where
  | stat (name : String)
  | mkdirAll (name : String) (perm : Nat)
  | removeAll (name : String)
  | run (inv : Invocation)
  | start (req : Spawn)
  deriving DecidableEq, Repr

/-- The file system and the calls made so far, oldest first. -/
structure World where
  fs : FileSystem
  trace : List Event
  deriving DecidableEq, Repr

/-- What a child process does: given the file system it starts in and its command line, the
file system it leaves and what `SimpleExecuteCommand` reports. -/
abbrev Runner := FileSystem → Invocation → FileSystem × ExecResult

/-- What starting a child with an open standard input does: the `*command` handle (of a type
`κ` this file does not look into) and the error of `NewTestSpaceCommand`. -/
abbrev Starter (κ : Type) := FileSystem → Spawn → FileSystem × Option κ × Option Error

/-- Go `os.Stat`, of which `Create` only uses the error: the call is recorded, the system
answers. -/
def os.Stat (sys : System) (world : World) (name : String) : World × Option Error :=
  ({ world with trace := world.trace ++ [Event.stat name] }, sys.stat world.fs name)

/-- Go `os.MkdirAll`: the call is recorded, the system answers. -/
def os.MkdirAll (sys : System) (world : World) (name : String) (perm : Nat) :
    World × Option Error :=
  ({ fs := (sys.mkdirAll world.fs name perm).1,
     trace := world.trace ++ [Event.mkdirAll name perm] },
    (sys.mkdirAll world.fs name perm).2)

/-- Go `os.RemoveAll`: the call is recorded; the empty path returns nil and a path ending in a
dot is refused, both before the system is asked; any other path goes to the system. -/
def os.RemoveAll (sys : System) (world : World) (name : String) : World × Option Error :=
  if name = "" then
    ({ world with trace := world.trace ++ [Event.removeAll name] }, none)
  else if endsWithDot name then
    ({ world with trace := world.trace ++ [Event.removeAll name] },
      some ("RemoveAll " ++ name ++ ": invalid argument"))
  else
    ({ fs := (sys.removeAll world.fs name).1,
       trace := world.trace ++ [Event.removeAll name] },
      (sys.removeAll world.fs name).2)

/-- `SimpleExecuteCommand(ctx, dir, env, name, arg...)`: the call is recorded, the child `sh`
decides the outcome. -/
def SimpleExecuteCommand (sh : Runner) (world : World) (inv : Invocation) : World × ExecResult :=
  ({ fs := (sh world.fs inv).1, trace := world.trace ++ [Event.run inv] }, (sh world.fs inv).2)

/-- `NewTestSpaceCommand(ctx, dir, env, enableStdin, stdout, stderr, name, arg...)`: the call is
recorded, `st` decides the outcome. -/
def NewTestSpaceCommand {κ : Type} (st : Starter κ) (world : World) (req : Spawn) :
    World × Option κ × Option Error :=
  ({ fs := (st world.fs req).1, trace := world.trace ++ [Event.start req] }, (st world.fs req).2)

/-! ## `testspace.go` -/

/-- The `workSpace` struct. -/
structure workSpace where
  path : String
  env : List String
  template : String
  customShell : String
  output : String
  outErr : String
  deriving DecidableEq, Repr

/-- The merged options `Create` reads; `mergeOptions` itself is not part of `testspace.go`. -/
structure createOption where
  workspacePath : String
  environments : List String
  template : String
  customShell : String
  deriving DecidableEq, Repr

/-- `Cleanup` destroys the workspace path. -/
def workSpace.Cleanup (sys : System) (w : workSpace) (world : World) :
    workSpace × World × Option Error :=
  if w.path.length = 0 then
    (w, world, some "the workspace path invalid, please check and delete it manually")
  else
    (w, os.RemoveAll sys world w.path)

/-- `GetPath` gets the current workspace path. -/
def workSpace.GetPath (w : workSpace) (subDirName : String) : String :=
  let subDirName := filepath.Clean subDirName
  let subDirName := if strings.HasPrefix subDirName "../" then "" else subDirName
  path.Join [w.path, subDirName]

def workSpace.GetEnvStr (w : workSpace) : List String := w.env

def workSpace.GetTemplateStr (w : workSpace) : String := w.template

def workSpace.GetShellStr (w : workSpace) : String := w.customShell

def workSpace.GetOutputStr (w : workSpace) : String := w.output

def workSpace.GetOutErr (w : workSpace) : String := w.outErr

/-- `Execute` runs the template, a newline and the script through `/bin/bash -c` in the
workspace directory, and stores the two streams in the workspace. -/
def workSpace.Execute (sh : Runner) (w : workSpace) (world : World) (ctx : Context)
    (shell : String) : workSpace × World × ExecResult :=
  let mixedShell := w.template ++ "\n" ++ shell
  let r := SimpleExecuteCommand sh world
    { ctx := ctx, dir := w.path, env := w.env, name := "/bin/bash", args := ["-c", mixedShell] }
  match r.2.err with
  | some err =>
    ({ w with output := r.2.stdout, outErr := r.2.stderr }, r.1,
      { stdout := r.2.stdout, stderr := r.2.stderr, err := some err })
  | none =>
    ({ w with output := r.2.stdout, outErr := r.2.stderr }, r.1,
      { stdout := r.2.stdout, stderr := r.2.stderr, err := none })

def workSpace.ExecuteWithStdin {κ : Type} (st : Starter κ) (w : workSpace) (world : World)
    (ctx : Context) (shell : String) : World × Option κ × Option Error :=
  let mixedShell := w.template ++ "\n" ++ shell
  NewTestSpaceCommand st world
    { ctx := ctx, dir := w.path, env := w.env, enableStdin := true, writers := (none, none),
      name := "/bin/bash", args := ["-c", mixedShell] }

/-- Init the git workspace, to prevent source code edit by mistake. -/
def initGitWorkspace (sh : Runner) (world : World) (dir : String) : World × Option Error :=
  let ctx := Context.WithTimeout Context.Background (3 * time.Second)
  let r := SimpleExecuteCommand sh world
    { ctx := ctx, dir := dir, env := [], name := "git", args := ["init", "."] }
  match r.2.err with
  | some err => (r.1, some err)
  | none => (r.1, none)

/-- `Create` on the merged options; `caller` is the file name `runtime.Caller(1)` reports, if it
reports one. Returns the `(Space, error)` pair, the space being `nil` or a workspace. -/
def Create (sys : System) (sh : Runner) (caller : Option String) (currentOption : createOption)
    (world : World) : World × Option workSpace × Option Error :=
  -- Check the dir is or not exist
  let s := os.Stat sys world currentOption.workspacePath
  let m := match s.2 with
    | some _ => os.MkdirAll sys s.1 currentOption.workspacePath 0o755
    | none => (s.1, none)
  match m.2 with
  | some err => (m.1, none, some err)
  | none =>
    let g := initGitWorkspace sh m.1 currentOption.workspacePath
    let space : workSpace :=
      { path := currentOption.workspacePath, env := currentOption.environments,
        template := currentOption.template, customShell := currentOption.customShell,
        output := "", outErr := "" }
    let cancelCtx := Context.WithCancel Context.Background
    let space := match caller with
      | some fn =>
        { space with env := (space.env ++ ["CALLER=" ++ fn]) ++ ["CALLER_DIR=" ++ filepath.Dir fn] }
      | none => space
    let x := space.Execute sh g.1 cancelCtx currentOption.customShell
    match x.2.2.err with
    | some err =>
      -- If the command got error, then cleanup the temporary folder
      let c := x.1.Cleanup sys x.2.1
      (c.2.1, some c.1, some err)
    | none => (x.2.1, some x.1, none)

/-- The workspace `Create` holds when it runs the initial script: the struct built from the
options, with the two caller entries appended to its environment when `runtime.Caller` reports
a file name. -/
def Create.space (caller : Option String) (currentOption : createOption) : workSpace :=
  match caller with
  | some fn =>
    { path := currentOption.workspacePath,
      env := (currentOption.environments ++ ["CALLER=" ++ fn])
        ++ ["CALLER_DIR=" ++ filepath.Dir fn],
      template := currentOption.template, customShell := currentOption.customShell,
      output := "", outErr := "" }
  | none =>
    { path := currentOption.workspacePath, env := currentOption.environments,
      template := currentOption.template, customShell := currentOption.customShell,
      output := "", outErr := "" }

/-- The directory check that opens `Create`: `os.Stat`, and `os.MkdirAll` when it fails. -/
def Create.ensureDir (sys : System) (currentOption : createOption) (world : World) :
    World × Option Error :=
  match (os.Stat sys world currentOption.workspacePath).2 with
  | some _ => os.MkdirAll sys (os.Stat sys world currentOption.workspacePath).1
      currentOption.workspacePath 0o755
  | none => ((os.Stat sys world currentOption.workspacePath).1, none)

/-- The world in which `Create` runs the initial script, given the world `world1` the directory
check left: `initGitWorkspace` has run, its result dropped. -/
def Create.scriptWorld (sh : Runner) (currentOption : createOption) (world1 : World) : World :=
  (initGitWorkspace sh world1 currentOption.workspacePath).1

/-- The run of the initial script inside `Create`: the workspace, world and result that
`space.Execute(cancelCtx, currentOption.customShell)` leaves. -/
def Create.script (sys : System) (sh : Runner) (caller : Option String)
    (currentOption : createOption) (world : World) : workSpace × World × ExecResult :=
  (Create.space caller currentOption).Execute sh
    (Create.scriptWorld sh currentOption (Create.ensureDir sys currentOption world).1)
    (Context.WithCancel Context.Background) currentOption.customShell

/-- The command line of the initial script. -/
def Create.scriptLine (caller : Option String) (currentOption : createOption) : Invocation :=
  { ctx := Context.WithCancel Context.Background, dir := currentOption.workspacePath,
    env := (Create.space caller currentOption).env, name := "/bin/bash",
    args := ["-c", currentOption.template ++ "\n" ++ currentOption.customShell] }

/-- The command line of `initGitWorkspace`. -/
def gitInitLine (dir : String) : Invocation :=
  { ctx := Context.WithTimeout Context.Background (3 * time.Second), dir := dir, env := [],
    name := "git", args := ["init", "."] }

/-- The documented contract of `os.RemoveAll`, as far as `Cleanup` relies on it: after a nil
result nothing exists any more under the name that was given, and on a name that does not exist
the result is nil. -/
def System.RemovesAsDocumented (sys : System) : Prop :=
  (∀ (fs : FileSystem) (name : String), name ≠ "" → (sys.removeAll fs name).2 = none →
    ∀ q : String, beneath name q = true →
      ∃ e, sys.stat (sys.removeAll fs name).1 q = some e ∧ sys.isNotExist e = true) ∧
  (∀ (fs : FileSystem) (name : String) (e : Error), sys.stat fs name = some e →
    sys.isNotExist e = true → (sys.removeAll fs name).2 = none)

/-! ## `Clean` on path elements -/

/-- The path elements of `p`: the maximal runs of bytes other than `/`, in order. -/
def elems : List Char → List (List Char)
  | [] => []
  | c :: t =>
    if c = '/' then elems t
    else if atSep t then [c] :: elems t
    else
      match elems t with
      | [] => [[c]]
      | e :: es => (c :: e) :: es

/-- The buffer after `n` leading parent references, `../..` (it reads the same in both
directions). -/
def dotdots : Nat → List Char
  | 0 => []
  | n + 1 => '.' :: '.' :: (if (dotdots n).length > 0 then '/' :: dotdots n else dotdots n)

/-- The buffer below the first kept element: the leading `/` of a rooted path, the leading
parent references of another. -/
def base (rooted : Bool) (dd : Nat) : List Char :=
  if rooted then ['/'] else dotdots dd

/-- The buffer after the element `e` is written to `out`, most recent byte first. -/
def push (rooted : Bool) (out e : List Char) : List Char :=
  e.reverse ++ (if (rooted ∧ out.length ≠ 1) ∨ (!rooted ∧ out.length ≠ 0) then '/' :: out else out)

/-- The buffer that holds `dd` leading parent references and then the elements `st`, the most
recent element first. -/
def rbuf (rooted : Bool) (dd : Nat) : List (List Char) → List Char
  | [] => base rooted dd
  | e :: st => push rooted (rbuf rooted dd st) e

/-- What one path element does to the kept elements: `.` nothing, `..` drops the most recent
one, or, when none is left, adds a leading parent reference unless the path is rooted; any other
element is kept. -/
def step (rooted : Bool) (s : Nat × List (List Char)) (e : List Char) :
    Nat × List (List Char) :=
  if e = ['.'] then s
  else if e = ['.', '.'] then
    match s.2 with
    | _ :: st => (s.1, st)
    | [] => if rooted then s else (s.1 + 1, [])
  else (s.1, e :: s.2)

/-- `Clean` stated on path elements: fold `step` over the elements, write the result out. -/
def cleanSpec (p : List Char) : List Char :=
  match p with
  | [] => ['.']
  | c :: _ =>
    if (rbuf (c == '/') ((elems p).foldl (step (c == '/')) (0, [])).1
        ((elems p).foldl (step (c == '/')) (0, [])).2).length = 0 then ['.']
    else (rbuf (c == '/') ((elems p).foldl (step (c == '/')) (0, [])).1
        ((elems p).foldl (step (c == '/')) (0, [])).2).reverse

/-- The elements kept so far are non-empty and have no `/` in them. -/
def Kept (st : List (List Char)) : Prop := ∀ e ∈ st, e ≠ [] ∧ ∀ x ∈ e, x ≠ '/'

/-- An element that `Clean` keeps: non-empty, without `/`, neither `.` nor `..`. -/
def Plain (e : List Char) : Prop :=
  e ≠ [] ∧ (∀ x ∈ e, x ≠ '/') ∧ e ≠ ['.'] ∧ e ≠ ['.', '.']

/-! ## A small system and concrete inputs, for the instances and counterexamples below -/

/-- The name of the entry reached from the root through the elements `st`, the last one first:
`/`, `/tmp`, `/tmp/ws`. -/
def rootName (st : List (List Char)) : String := ⟨(rbuf true 0 st).reverse⟩

/-- Name resolution in the small system, element by element from the root (which is also the
working directory): `.` stays, `..` goes up, any other element goes down into an entry that has
to exist unless it is the last element of the name. -/
def walk (entries : List String) :
    List (List Char) → List (List Char) → Option (List (List Char))
  | [], st => some st
  | e :: rest, st =>
    if e = ['.'] then walk entries rest st
    else if e = ['.', '.'] then walk entries rest st.tail
    else if rest = [] ∨ entries.contains (rootName (e :: st)) = true then
      walk entries rest (e :: st)
    else none

/-- The entry reached through `st` exists; the root always does. -/
def present (fs : FileSystem) (st : List (List Char)) : Bool :=
  st == [] || fs.entries.contains (rootName st)

/-- Every directory on the way from the root down to `st` exists. -/
def AllExist (entries : List String) : List (List Char) → Prop
  | [] => True
  | e :: st => entries.contains (rootName (e :: st)) = true ∧ AllExist entries st

/-- `stat` in the small system. -/
def small.stat (fs : FileSystem) (name : String) : Option Error :=
  if name = "" then some "no such file or directory"
  else
    match walk fs.entries (elems name.data) [] with
    | some st => if present fs st then none else some "no such file or directory"
    | none => some "no such file or directory"

/-- `mkdir -p` in the small system: the elements that are missing on the way are created, unless
the system refuses the name. -/
def small.mkwalk (fs : FileSystem) :
    List (List Char) → List (List Char) → FileSystem × Option Error
  | [], _ => (fs, none)
  | e :: rest, st =>
    if e = ['.'] then small.mkwalk fs rest st
    else if e = ['.', '.'] then small.mkwalk fs rest st.tail
    else if fs.entries.contains (rootName (e :: st)) then small.mkwalk fs rest (e :: st)
    else if fs.denied.contains (rootName (e :: st)) then (fs, some "permission denied")
    else small.mkwalk { fs with entries := fs.entries ++ [rootName (e :: st)] } rest (e :: st)

/-- `os.MkdirAll` in the small system. -/
def small.mkdirAll (fs : FileSystem) (name : String) (_perm : Nat) : FileSystem × Option Error :=
  if name = "" then (fs, some "no such file or directory")
  else small.mkwalk fs (elems name.data) []

/-- `os.RemoveAll` (past its guards) in the small system. A name that does not resolve, or
resolves to nothing, is no error and nothing is done. Nothing is removed from a tree that holds
a name the system refuses to change. Otherwise the tree under the entry goes; the entry itself
goes too and the result is nil, unless the name is the root or ends in `.` or `..`, in which
case the entry stays and an error is returned. -/
def small.removeAll (fs : FileSystem) (name : String) : FileSystem × Option Error :=
  if name = "" then (fs, none)
  else
    match walk fs.entries (elems name.data) [] with
    | none => (fs, none)
    | some st =>
      if present fs st = false then (fs, none)
      else if fs.entries.any (fun e => beneath (rootName st) e && fs.denied.contains e) then
        (fs, some "operation not permitted")
      else if st = [] ∨ (elems name.data).getLast? = some ['.'] ∨
          (elems name.data).getLast? = some ['.', '.'] then
        ({ fs with entries :=
            fs.entries.filter fun e => e == rootName st || !beneath (rootName st) e },
          some "directory not empty")
      else
        ({ fs with entries := fs.entries.filter fun e => !beneath (rootName st) e }, none)

/-- A small Unix-like system without symbolic links, whose working directory is the root. -/
def smallSystem : System :=
  { stat := small.stat, mkdirAll := small.mkdirAll, removeAll := small.removeAll,
    isNotExist := fun e => e == "no such file or directory" }

/-- A workspace at `/tmp/ws` with template `T`, built with the script `init`. -/
def sampleSpace : workSpace :=
  { path := "/tmp/ws", env := ["K=v"], template := "T", customShell := "init",
    output := "", outErr := "" }

/-- A workspace whose path goes through a directory `nope` that does not exist. -/
def detourSpace : workSpace :=
  { path := "/tmp/ws/nope/..", env := [], template := "", customShell := "",
    output := "", outErr := "" }

/-- A world in which `/tmp/ws` exists, with an entry `a` in it, and nothing is refused. -/
def sampleWorld : World :=
  { fs := { entries := ["/", "/tmp", "/tmp/ws", "/tmp/ws/a"], denied := [] }, trace := [] }

/-- A world in which `/tmp/ws` exists and the system refuses to remove it. -/
def lockedWorld : World :=
  { fs := { entries := ["/", "/tmp", "/tmp/ws"], denied := ["/tmp/ws"] }, trace := [] }

/-- Options asking for a workspace at `/tmp/ws`. -/
def sampleOption : createOption :=
  { workspacePath := "/tmp/ws", environments := ["K=v", "K=w"], template := "T",
    customShell := "init" }

/-- Every child succeeds and prints `hello`. -/
def helloRunner : Runner :=
  fun fs _ => (fs, { stdout := "hello", stderr := "", err := none })

/-- `git` succeeds, every other child fails with exit status 1. -/
def failingScript : Runner :=
  fun fs inv =>
    if inv.name = "git" then (fs, { stdout := "", stderr := "", err := none })
    else (fs, { stdout := "out", stderr := "oops", err := some "exit status 1" })

/-- `git` fails (as when it is not installed), every other child succeeds. -/
def failingGit : Runner :=
  fun fs inv =>
    if inv.name = "git" then
      (fs, { stdout := "", stderr := "", err := some "exec: git: not found" })
    else (fs, { stdout := "hello", stderr := "", err := none })

/-! ## Theorems -/

section CleanTheory

/-! ### Path elements -/

theorem atSep_append_sep (t q : List Char) : atSep (t ++ '/' :: q) = atSep t := by
  cases t <;> simp [atSep]

theorem elems_ne_nil_of_not_atSep (t : List Char) (h : atSep t = false) : elems t ≠ [] := by
  cases t with
  | nil => simp [atSep] at h
  | cons d t =>
    have hd : d ≠ '/' := by simpa [atSep] using h
    unfold elems
    rw [if_neg hd]
    split
    · simp
    · split <;> simp

/-- A `/` between two pieces separates their elements. -/
theorem elems_append_sep (p q : List Char) : elems (p ++ '/' :: q) = elems p ++ elems q := by
  induction p with
  | nil => simp [elems]
  | cons c t ih =>
    rw [List.cons_append]
    by_cases hc : c = '/'
    · simp only [elems, hc, if_true, ih]
    · by_cases hs : atSep t = true
      · simp only [elems, hc, if_false, atSep_append_sep, hs, if_true, ih, List.cons_append]
      · have hs2 : atSep t = false := by simpa using hs
        have hne := elems_ne_nil_of_not_atSep t hs2
        simp only [elems, hc, if_false, atSep_append_sep, hs2, ih, Bool.false_eq_true]
        cases h : elems t with
        | nil => exact absurd h hne
        | cons e es => simp

theorem elems_cons (c : Char) (t : List Char) :
    elems (c :: t) =
      if c = '/' then elems t
      else if atSep t then [c] :: elems t
      else
        match elems t with
        | [] => [[c]]
        | e :: es => (c :: e) :: es := by
  rw [elems]

/-- An element followed by a separator or the end of the input is the first element. -/
theorem elems_elem_append (e rest : List Char) (hne : e ≠ []) (hslash : ∀ x ∈ e, x ≠ '/')
    (hrest : atSep rest = true) : elems (e ++ rest) = e :: elems rest := by
  induction e with
  | nil => exact absurd rfl hne
  | cons c t ih =>
    have hc : c ≠ '/' := hslash c (List.mem_cons_self _ _)
    by_cases ht : t = []
    · subst ht
      rw [List.cons_append, List.nil_append, elems_cons, if_neg hc, if_pos hrest]
    · have ih' := ih ht (fun x hx => hslash x (List.mem_cons_of_mem _ hx))
      have hs : atSep (t ++ rest) = false := by
        cases t with
        | nil => exact absurd rfl ht
        | cons d t' =>
          have : d ≠ '/' := hslash d (by simp)
          simp [atSep, this]
      rw [List.cons_append, elems_cons, if_neg hc, if_neg (by simp [hs]), ih']

theorem elems_elem (e : List Char) (hne : e ≠ []) (hslash : ∀ x ∈ e, x ≠ '/') :
    elems e = [e] := by
  have := elems_elem_append e [] hne hslash rfl
  simpa [elems] using this

/-- Every path element is non-empty and has no `/` in it. -/
theorem elems_mem (p e : List Char) (h : e ∈ elems p) : e ≠ [] ∧ ∀ x ∈ e, x ≠ '/' := by
  induction p generalizing e with
  | nil => simp [elems] at h
  | cons c t ih =>
    unfold elems at h
    by_cases hc : c = '/'
    · rw [if_pos hc] at h
      exact ih e h
    · rw [if_neg hc] at h
      by_cases hs : atSep t = true
      · rw [if_pos hs] at h
        rcases List.mem_cons.1 h with rfl | h
        · simp [hc]
        · exact ih e h
      · rw [if_neg hs] at h
        cases h2 : elems t with
        | nil =>
          rw [h2] at h
          simp only [List.mem_singleton] at h
          subst h
          simp [hc]
        | cons e0 es =>
          rw [h2] at h
          rcases List.mem_cons.1 h with rfl | h
          · have := ih e0 (by rw [h2]; simp)
            refine ⟨by simp, ?_⟩
            intro x hx
            rcases List.mem_cons.1 hx with rfl | hx
            · exact hc
            · exact this.2 x hx
          · exact ih e (by rw [h2]; exact List.mem_cons_of_mem _ h)

/-! ### The buffer -/

/-- Backtracking over the bytes of an element that a `/` separates from the rest of the buffer
removes the element and the `/`. -/
theorem backtrackLoop_sep (dotdot : Nat) (out : List Char) (hd : dotdot ≤ out.length)
    (er : List Char) (last : Char) (hlast : last ≠ '/') (her : ∀ x ∈ er, x ≠ '/') :
    backtrackLoop dotdot last (er ++ '/' :: out) = out := by
  induction er generalizing last with
  | nil =>
    rw [List.nil_append, backtrackLoop, if_pos ⟨by simp only [List.length_cons]; omega, hlast⟩]
    cases out with
    | nil => rfl
    | cons c rest => rw [backtrackLoop, if_neg (by simp)]
  | cons x er ih =>
    rw [List.cons_append, backtrackLoop,
      if_pos ⟨by simp only [List.length_cons, List.length_append]; omega, hlast⟩]
    exact ih x (her x (List.mem_cons_self _ _)) (fun y hy => her y (List.mem_cons_of_mem _ hy))

/-- Backtracking over the bytes of an element written right at `dotdot` stops at `dotdot`. -/
theorem backtrackLoop_nosep (dotdot : Nat) (out : List Char) (hd : out.length = dotdot)
    (er : List Char) (last : Char) (hlast : last ≠ '/') (her : ∀ x ∈ er, x ≠ '/') :
    backtrackLoop dotdot last (er ++ out) = out := by
  induction er generalizing last with
  | nil =>
    rw [List.nil_append]
    cases out with
    | nil => rfl
    | cons c rest => rw [backtrackLoop, if_neg (by simp only [not_and]; intro h; omega)]
  | cons x er ih =>
    rw [List.cons_append, backtrackLoop,
      if_pos ⟨by simp only [List.length_cons, List.length_append]; omega, hlast⟩]
    exact ih x (her x (List.mem_cons_self _ _)) (fun y hy => her y (List.mem_cons_of_mem _ hy))

/-- Backtracking undoes the last `push`. -/
theorem backtrack_push (rooted : Bool) (dotdot : Nat) (out e : List Char)
    (hd : dotdot ≤ out.length) (hr : rooted = true → dotdot = 1)
    (hne : e ≠ []) (hslash : ∀ x ∈ e, x ≠ '/') :
    backtrack dotdot (push rooted out e) = out := by
  unfold push
  have hrev : ∀ x ∈ e.reverse, x ≠ '/' := fun x hx => hslash x (List.mem_reverse.1 hx)
  cases hrv : e.reverse with
  | nil => exact absurd (List.reverse_eq_nil_iff.1 hrv) hne
  | cons c er =>
    rw [hrv] at hrev
    have hc : c ≠ '/' := hrev c (List.mem_cons_self _ _)
    have her : ∀ x ∈ er, x ≠ '/' := fun x hx => hrev x (List.mem_cons_of_mem _ hx)
    rw [List.cons_append, backtrack]
    split
    · exact backtrackLoop_sep dotdot out hd er c hc her
    · rename_i hsep
      refine backtrackLoop_nosep dotdot out ?_ er c hc her
      cases rooted with
      | true =>
        have h1 := hr rfl
        simp only [true_and, Bool.not_true, Bool.false_eq_true, false_and, or_false,
          not_not] at hsep
        omega
      | false =>
        simp only [Bool.false_eq_true, false_and, Bool.not_false, true_and, false_or,
          not_not] at hsep
        omega

theorem length_le_push (rooted : Bool) (out e : List Char) (hne : e ≠ []) :
    out.length < (push rooted out e).length := by
  unfold push
  have : 0 < e.length := List.length_pos.2 hne
  split <;> simp only [List.length_append, List.length_reverse, List.length_cons] <;> omega

theorem base_length_le_rbuf (rooted : Bool) (dd : Nat) (st : List (List Char))
    (hst : ∀ e ∈ st, e ≠ []) : (base rooted dd).length ≤ (rbuf rooted dd st).length := by
  induction st with
  | nil => exact Nat.le_refl _
  | cons e st ih =>
    have := length_le_push rooted (rbuf rooted dd st) e (hst e (List.mem_cons_self _ _))
    have := ih (fun x hx => hst x (List.mem_cons_of_mem _ hx))
    rw [rbuf]
    omega

theorem base_length_rooted (dd : Nat) : (base true dd).length = 1 := rfl

/-! ### The loop computes the fold over the path elements -/

theorem atSep_dropWhile (l : List Char) : atSep (l.dropWhile (· ≠ '/')) = true := by
  induction l with
  | nil => rfl
  | cons x l ih =>
    rw [List.dropWhile_cons]
    split
    · exact ih
    · rename_i h
      have : x = '/' := by simpa using h
      simp [atSep, this]

theorem takeWhile_eq_nil_iff_atSep (l : List Char) :
    l.takeWhile (· ≠ '/') = [] ↔ atSep l = true := by
  cases l with
  | nil => simp [atSep]
  | cons x l =>
    rw [List.takeWhile_cons]
    by_cases hx : x = '/'
    · simp [atSep, hx]
    · simp [atSep, hx]

theorem step_dot (rooted : Bool) (s : Nat × List (List Char)) : step rooted s ['.'] = s := by
  simp [step]

theorem step_dotdot_cons (rooted : Bool) (dd : Nat) (e : List Char) (st : List (List Char)) :
    step rooted (dd, e :: st) ['.', '.'] = (dd, st) := by
  simp [step]

theorem step_dotdot_nil_rooted (dd : Nat) : step true (dd, []) ['.', '.'] = (dd, []) := by
  simp [step]

theorem step_dotdot_nil (dd : Nat) : step false (dd, []) ['.', '.'] = (dd + 1, []) := by
  simp [step]

theorem step_keep (rooted : Bool) (dd : Nat) (st : List (List Char)) (e : List Char)
    (h1 : e ≠ ['.']) (h2 : e ≠ ['.', '.']) : step rooted (dd, st) e = (dd, e :: st) := by
  simp [step, h1, h2]

theorem Kept.tail {e : List Char} {st : List (List Char)} (h : Kept (e :: st)) : Kept st :=
  fun x hx => h x (List.mem_cons_of_mem _ hx)

theorem Kept.cons {e : List Char} {st : List (List Char)} (he : e ≠ [] ∧ ∀ x ∈ e, x ≠ '/')
    (h : Kept st) : Kept (e :: st) := by
  intro x hx
  rcases List.mem_cons.1 hx with rfl | hx
  · exact he
  · exact h x hx

/-- With fuel for every unread byte, the loop of `Clean` started on a buffer that holds `dd`
parent references and the elements `st` ends on the buffer of the state that folding `step` over
the unread elements gives. -/
theorem cleanLoop_spec (rooted : Bool) :
    ∀ (fuel : Nat) (rest : List Char) (dd : Nat) (st : List (List Char)),
      rest.length ≤ fuel → Kept st →
      cleanLoop rooted fuel rest (rbuf rooted dd st) (base rooted dd).length =
        rbuf rooted ((elems rest).foldl (step rooted) (dd, st)).1
          ((elems rest).foldl (step rooted) (dd, st)).2 := by
  intro fuel
  induction fuel with
  | zero =>
    intro rest dd st hlen _
    have : rest = [] := List.length_eq_zero.1 (Nat.le_zero.1 hlen)
    subst this
    simp [cleanLoop, elems]
  | succ fuel ih =>
    intro rest dd st hlen hk
    cases rest with
    | nil => simp [cleanLoop, elems]
    | cons c t =>
      have ht : t.length ≤ fuel := by simpa using hlen
      rw [cleanLoop]
      by_cases hc : c = '/'
      · rw [if_pos hc, elems_cons, if_pos hc]
        exact ih t dd st ht hk
      · rw [if_neg hc]
        by_cases hdot : c = '.' ∧ atSep t = true
        · rw [if_pos hdot, elems_cons, if_neg hc, if_pos hdot.2, List.foldl_cons, hdot.1,
            step_dot]
          exact ih t dd st ht hk
        · rw [if_neg hdot]
          by_cases hdd : c = '.' ∧ t.head? = some '.' ∧ atSep (t.drop 1) = true
          · rw [if_pos hdd]
            obtain ⟨rfl, hhead, hsep⟩ := hdd
            obtain ⟨t2, rfl⟩ : ∃ t2, t = '.' :: t2 := by
              cases t with
              | nil => simp at hhead
              | cons d t2 => exact ⟨t2, by simp at hhead; rw [hhead]⟩
            simp only [List.drop_succ_cons, List.drop_zero] at hsep ⊢
            have ht2 : t2.length ≤ fuel := by simp at ht; omega
            have hel : elems ('.' :: '.' :: t2) = ['.', '.'] :: elems t2 :=
              elems_elem_append ['.', '.'] t2 (by simp) (by simp) hsep
            rw [hel, List.foldl_cons]
            cases st with
            | nil =>
              have hlt : ¬ (rbuf rooted dd []).length > (base rooted dd).length := by
                simp [rbuf]
              rw [if_neg hlt]
              cases rooted with
              | true =>
                rw [if_neg (by simp), step_dotdot_nil_rooted]
                exact ih t2 dd [] ht2 hk
              | false =>
                rw [if_pos (by simp), step_dotdot_nil]
                have := ih t2 (dd + 1) [] ht2 hk
                simp only [rbuf, base, Bool.false_eq_true, if_false] at this ⊢
                rw [dotdots] at this
                exact this
            | cons e st =>
              have hlt : (rbuf rooted dd (e :: st)).length > (base rooted dd).length := by
                have h1 := base_length_le_rbuf rooted dd st (fun x hx => (hk.tail x hx).1)
                have h2 := length_le_push rooted (rbuf rooted dd st) e
                  (hk e (List.mem_cons_self _ _)).1
                rw [rbuf]
                omega
              rw [if_pos hlt, step_dotdot_cons, rbuf,
                backtrack_push rooted _ _ e
                  (base_length_le_rbuf rooted dd st (fun x hx => (hk.tail x hx).1))
                  (by intro hr; subst hr; rfl)
                  (hk e (List.mem_cons_self _ _)).1 (hk e (List.mem_cons_self _ _)).2]
              exact ih t2 dd st ht2 hk.tail
          · rw [if_neg hdd]
            have htw : (c :: t).takeWhile (· ≠ '/') = c :: t.takeWhile (· ≠ '/') := by
              rw [List.takeWhile_cons, if_pos (by simpa using hc)]
            have hdw : (c :: t).dropWhile (· ≠ '/') = t.dropWhile (· ≠ '/') := by
              rw [List.dropWhile_cons, if_pos (by simpa using hc)]
            have hsplit : c :: t = (c :: t.takeWhile (· ≠ '/')) ++ t.dropWhile (· ≠ '/') := by
              rw [List.cons_append, List.takeWhile_append_dropWhile]
            have hslash : ∀ x ∈ c :: t.takeWhile (· ≠ '/'), x ≠ '/' := by
              intro x hx
              rcases List.mem_cons.1 hx with rfl | hx
              · exact hc
              · simpa using List.mem_takeWhile_imp hx
            have hel : elems (c :: t) =
                (c :: t.takeWhile (· ≠ '/')) :: elems (t.dropWhile (· ≠ '/')) := by
              conv_lhs => rw [hsplit]
              exact elems_elem_append _ _ (by simp) hslash (atSep_dropWhile t)
            have h1 : c :: t.takeWhile (· ≠ '/') ≠ ['.'] := by
              intro h
              simp only [List.cons.injEq] at h
              exact hdot ⟨h.1, (takeWhile_eq_nil_iff_atSep t).1 h.2⟩
            have h2 : c :: t.takeWhile (· ≠ '/') ≠ ['.', '.'] := by
              intro h
              simp only [List.cons.injEq] at h
              obtain ⟨h0, h3⟩ := h
              cases t with
              | nil => simp at h3
              | cons d t2 =>
                rw [List.takeWhile_cons] at h3
                split at h3
                · simp only [List.cons.injEq] at h3
                  exact hdd ⟨h0, by simp [h3.1], by
                    simpa using (takeWhile_eq_nil_iff_atSep t2).1 h3.2⟩
                · simp at h3
            rw [htw, hdw, hel, List.foldl_cons, step_keep rooted dd st _ h1 h2]
            have hlen2 : (t.dropWhile (· ≠ '/')).length ≤ fuel :=
              Nat.le_trans (List.dropWhile_sublist _).length_le ht
            have := ih (t.dropWhile (· ≠ '/')) dd (_ :: st) hlen2 (Kept.cons ⟨by simp, hslash⟩ hk)
            rw [rbuf, push] at this
            exact this

/-- Fuel beyond the number of unread bytes changes nothing: the loop has ended before. -/
theorem cleanLoop_fuel (rooted : Bool) :
    ∀ (f1 f2 : Nat) (rest out : List Char) (dotdot : Nat),
      rest.length ≤ f1 → rest.length ≤ f2 →
      cleanLoop rooted f1 rest out dotdot = cleanLoop rooted f2 rest out dotdot := by
  intro f1
  induction f1 with
  | zero =>
    intro f2 rest out dotdot h1 _
    have : rest = [] := List.length_eq_zero.1 (Nat.le_zero.1 h1)
    subst this
    cases f2 <;> simp [cleanLoop]
  | succ f1 ih =>
    intro f2 rest out dotdot h1 h2
    cases rest with
    | nil => cases f2 <;> simp [cleanLoop]
    | cons c t =>
      cases f2 with
      | zero => simp at h2
      | succ f2 =>
        have ht1 : t.length ≤ f1 := by simpa using h1
        have ht2 : t.length ≤ f2 := by simpa using h2
        have hd1 : (t.drop 1).length ≤ f1 := by simp; omega
        have hd2 : (t.drop 1).length ≤ f2 := by simp; omega
        rw [cleanLoop, cleanLoop]
        by_cases hc : c = '/'
        · rw [if_pos hc, if_pos hc]
          exact ih f2 t out dotdot ht1 ht2
        · have hw : ((c :: t).dropWhile (· ≠ '/')).length ≤ t.length := by
            rw [List.dropWhile_cons, if_pos (by simpa using hc)]
            exact (List.dropWhile_sublist _).length_le
          rw [if_neg hc, if_neg hc]
          split_ifs <;>
            first
            | exact ih f2 _ _ _ ht1 ht2
            | exact ih f2 _ _ _ hd1 hd2
            | exact ih f2 _ _ _ (Nat.le_trans hw ht1) (Nat.le_trans hw ht2)

/-! ### `Clean` is the fold over the path elements -/

/-- Refinement: the byte loop of `Clean` computes `cleanSpec`. -/
theorem cleanChars_eq_cleanSpec (p : List Char) : cleanChars p = cleanSpec p := by
  cases p with
  | nil => rfl
  | cons c t =>
    unfold cleanChars cleanSpec
    by_cases hc : c = '/'
    · subst hc
      have h := cleanLoop_spec true ('/' :: t).length t 0 [] (by simp) (by intro e he; simp at he)
      have hel : elems ('/' :: t) = elems t := by rw [elems_cons, if_pos rfl]
      simp only [rbuf, base, if_true] at h
      simp only [beq_self_eq_true, if_true, hel]
      rw [show ([ '/' ].length) = 1 from rfl] at h
      rw [h]
    · have hb : (c == '/') = false := by simpa using hc
      have h := cleanLoop_spec false (c :: t).length (c :: t) 0 [] (Nat.le_refl _)
        (by intro e he; simp at he)
      simp only [rbuf, base, Bool.false_eq_true, if_false, dotdots, List.length_nil] at h
      simp only [hb, Bool.false_eq_true, if_false]
      rw [h]

/-! ### The elements of a cleaned path -/

theorem Plain.kept {st : List (List Char)} (h : ∀ e ∈ st, Plain e) : Kept st :=
  fun e he => ⟨(h e he).1, (h e he).2.1⟩

/-- Folding `step` keeps only plain elements. -/
theorem foldl_step_plain (rooted : Bool) (es : List (List Char)) :
    ∀ (dd : Nat) (st : List (List Char)),
      (∀ e ∈ es, e ≠ [] ∧ ∀ x ∈ e, x ≠ '/') → (∀ e ∈ st, Plain e) →
      ∀ e ∈ (es.foldl (step rooted) (dd, st)).2, Plain e := by
  induction es with
  | nil => intro dd st _ hst; simpa using hst
  | cons a es ih =>
    intro dd st hes hst
    rw [List.foldl_cons]
    have hes' : ∀ e ∈ es, e ≠ [] ∧ ∀ x ∈ e, x ≠ '/' :=
      fun e he => hes e (List.mem_cons_of_mem _ he)
    have ha := hes a (List.mem_cons_self _ _)
    by_cases h1 : a = ['.']
    · rw [h1, step_dot]
      exact ih dd st hes' hst
    · by_cases h2 : a = ['.', '.']
      · rw [h2]
        cases st with
        | nil =>
          cases rooted with
          | true => rw [step_dotdot_nil_rooted]; exact ih _ _ hes' hst
          | false => rw [step_dotdot_nil]; exact ih _ _ hes' hst
        | cons e st =>
          rw [step_dotdot_cons]
          exact ih _ _ hes' (fun x hx => hst x (List.mem_cons_of_mem _ hx))
      · rw [step_keep rooted dd st a h1 h2]
        refine ih _ _ hes' ?_
        intro x hx
        rcases List.mem_cons.1 hx with rfl | hx
        · exact ⟨ha.1, ha.2, h1, h2⟩
        · exact hst x hx

/-- A rooted path never gets a leading parent reference. -/
theorem foldl_step_rooted (es : List (List Char)) :
    ∀ (dd : Nat) (st : List (List Char)), (es.foldl (step true) (dd, st)).1 = dd := by
  induction es with
  | nil => intro dd st; rfl
  | cons a es ih =>
    intro dd st
    rw [List.foldl_cons]
    by_cases h1 : a = ['.']
    · rw [h1, step_dot]
      exact ih dd st
    · by_cases h2 : a = ['.', '.']
      · rw [h2]
        cases st with
        | nil => rw [step_dotdot_nil_rooted]; exact ih _ _
        | cons e st => rw [step_dotdot_cons]; exact ih _ _
      · rw [step_keep true dd st a h1 h2]
        exact ih _ _

/-- Plain elements are all kept, in order. -/
theorem foldl_step_keep (rooted : Bool) (es : List (List Char)) :
    ∀ (dd : Nat) (st : List (List Char)), (∀ e ∈ es, Plain e) →
      es.foldl (step rooted) (dd, st) = (dd, es.reverse ++ st) := by
  induction es with
  | nil => intro dd st _; rfl
  | cons a es ih =>
    intro dd st hes
    have ha := hes a (List.mem_cons_self _ _)
    rw [List.foldl_cons, step_keep rooted dd st a ha.2.2.1 ha.2.2.2,
      ih dd (a :: st) (fun e he => hes e (List.mem_cons_of_mem _ he))]
    simp

/-- Parent references at the start of a path that is not rooted are counted. -/
theorem foldl_step_dotdots (n : Nat) :
    ∀ dd : Nat, (List.replicate n ['.', '.']).foldl (step false) (dd, []) = (dd + n, []) := by
  induction n with
  | zero => intro dd; rfl
  | succ n ih =>
    intro dd
    rw [List.replicate_succ, List.foldl_cons, step_dotdot_nil, ih]
    congr 1
    omega

theorem dotdots_succ_succ (n : Nat) :
    dotdots (n + 2) = '.' :: '.' :: '/' :: dotdots (n + 1) := by
  rw [dotdots, if_pos (by rw [dotdots]; simp)]

theorem dotdots_comm (n : Nat) :
    '.' :: '.' :: '/' :: dotdots (n + 1) = dotdots (n + 1) ++ ['/', '.', '.'] := by
  induction n with
  | zero => rfl
  | succ n ih =>
    rw [dotdots_succ_succ]
    conv_lhs => rw [ih]
    rfl

theorem dotdots_reverse (n : Nat) : (dotdots n).reverse = dotdots n := by
  induction n with
  | zero => rfl
  | succ n ih =>
    cases n with
    | zero => rfl
    | succ n =>
      rw [dotdots_succ_succ]
      simp only [List.reverse_cons, ih, List.append_assoc, List.singleton_append]
      rw [dotdots_comm]
      rfl

theorem elems_dotdots (n : Nat) : elems (dotdots n) = List.replicate n ['.', '.'] := by
  induction n with
  | zero => rfl
  | succ n ih =>
    cases n with
    | zero => rfl
    | succ n =>
      rw [dotdots_succ_succ, List.replicate_succ]
      have := elems_elem_append ['.', '.'] ('/' :: dotdots (n + 1)) (by simp) (by simp) rfl
      simp only [List.cons_append, List.nil_append] at this
      rw [this, elems_cons, if_pos rfl, ih]

theorem dotdots_length_eq_zero (n : Nat) (h : (dotdots n).length = 0) : n = 0 := by
  cases n with
  | zero => rfl
  | succ n => rw [dotdots] at h; simp at h

theorem rbuf_length_eq_base (rooted : Bool) (dd : Nat) (st : List (List Char)) (hk : Kept st)
    (h : (rbuf rooted dd st).length = (base rooted dd).length) : st = [] := by
  cases st with
  | nil => rfl
  | cons e st =>
    have h1 := base_length_le_rbuf rooted dd st (fun x hx => (hk.tail x hx).1)
    have h2 := length_le_push rooted (rbuf rooted dd st) e (hk e (List.mem_cons_self _ _)).1
    rw [rbuf] at h
    omega

/-- The elements of the text the buffer holds: the parent references, then the kept elements,
oldest first. -/
theorem elems_rbuf (rooted : Bool) (dd : Nat) (hr : rooted = true → dd = 0)
    (st : List (List Char)) (hk : Kept st) :
    elems (rbuf rooted dd st).reverse = List.replicate dd ['.', '.'] ++ st.reverse := by
  induction st with
  | nil =>
    cases rooted with
    | true =>
      rw [hr rfl]
      rfl
    | false =>
      simp only [rbuf, base, Bool.false_eq_true, if_false, dotdots_reverse, elems_dotdots,
        List.reverse_nil, List.append_nil]
  | cons e st ih =>
    have he := hk e (List.mem_cons_self _ _)
    have ih' := ih hk.tail
    rw [rbuf, push]
    split
    · rw [List.reverse_append, List.reverse_reverse, List.reverse_cons, List.append_assoc,
        List.singleton_append, elems_append_sep, ih', elems_elem e he.1 he.2]
      simp
    · rename_i hsep
      rw [List.reverse_append, List.reverse_reverse]
      cases rooted with
      | true =>
        have hlen : (rbuf true dd st).length = (base true dd).length := by
          simp only [true_and, Bool.not_true, Bool.false_eq_true, false_and, or_false,
            not_not] at hsep
          rw [hsep]; rfl
        have hst := rbuf_length_eq_base true dd st hk.tail hlen
        subst hst
        rw [hr rfl]
        show elems ('/' :: e) = _
        rw [elems_cons, if_pos rfl, elems_elem e he.1 he.2]
        rfl
      | false =>
        have hlen0 : (rbuf false dd st).length = 0 := by
          simpa using hsep
        have hb : (base false dd).length = 0 := by
          have := base_length_le_rbuf false dd st (fun x hx => (hk.tail x hx).1)
          omega
        have hst := rbuf_length_eq_base false dd st hk.tail (by rw [hlen0, hb])
        subst hst
        have hdd : dd = 0 := dotdots_length_eq_zero dd (by simpa [base] using hb)
        subst hdd
        show elems ([] ++ e) = _
        rw [List.nil_append, elems_elem e he.1 he.2]
        rfl

/-- The text the buffer holds starts with `/` exactly when the path is rooted. -/
theorem head_rbuf (rooted : Bool) (dd : Nat) (st : List (List Char)) (hk : Kept st)
    (hne : rbuf rooted dd st ≠ []) :
    ∃ c t, (rbuf rooted dd st).reverse = c :: t ∧ (c == '/') = rooted := by
  induction st with
  | nil =>
    cases rooted with
    | true => exact ⟨'/', [], rfl, rfl⟩
    | false =>
      simp only [rbuf, base, Bool.false_eq_true, if_false] at hne ⊢
      rw [dotdots_reverse]
      cases dd with
      | zero => exact absurd rfl hne
      | succ n => exact ⟨'.', _, by rw [dotdots], by decide⟩
  | cons e st ih =>
    have he := hk e (List.mem_cons_self _ _)
    rw [rbuf, push, List.reverse_append, List.reverse_reverse]
    by_cases hprev : rbuf rooted dd st = []
    · have hroot : rooted = false := by
        cases rooted with
        | false => rfl
        | true =>
          have := base_length_le_rbuf true dd st (fun x hx => (hk.tail x hx).1)
          rw [hprev] at this
          simp [base] at this
      subst hroot
      rw [hprev]
      simp only [Bool.false_eq_true, false_and, Bool.not_false, List.length_nil, ne_eq,
        not_true_eq_false, and_false, or_self, if_false, List.reverse_nil, List.nil_append]
      cases e with
      | nil => exact absurd rfl he.1
      | cons c t => exact ⟨c, t, rfl, by simpa using he.2 c (List.mem_cons_self _ _)⟩
    · obtain ⟨c, t, hct, hc⟩ := ih hk.tail hprev
      split
      · exact ⟨c, t ++ '/' :: e, by rw [List.reverse_cons, hct]; simp, hc⟩
      · exact ⟨c, t ++ e, by rw [hct]; simp, hc⟩

/-! ### Consequences for `Clean` -/

/-- The state `Clean` ends in on a non-empty path: only plain elements are kept, and a rooted
path has no leading parent reference. -/
theorem final_state (c : Char) (t : List Char) :
    (∀ e ∈ ((elems (c :: t)).foldl (step (c == '/')) (0, [])).2, Plain e) ∧
    ((c == '/') = true → ((elems (c :: t)).foldl (step (c == '/')) (0, [])).1 = 0) := by
  refine ⟨foldl_step_plain _ _ 0 [] (fun e he => elems_mem _ e he) (by simp), ?_⟩
  intro h
  rw [h]
  exact foldl_step_rooted _ 0 []

/-- The text of a buffer that holds plain elements is a fixed point of `Clean`. -/
theorem cleanSpec_rbuf (rooted : Bool) (dd : Nat) (st : List (List Char))
    (hr : rooted = true → dd = 0) (hp : ∀ e ∈ st, Plain e) (hne : rbuf rooted dd st ≠ []) :
    cleanSpec (rbuf rooted dd st).reverse = (rbuf rooted dd st).reverse := by
  obtain ⟨c, t, hct, hc⟩ := head_rbuf rooted dd st (Plain.kept hp) hne
  have hel := elems_rbuf rooted dd hr st (Plain.kept hp)
  rw [hct] at hel
  have hfold : (elems (c :: t)).foldl (step rooted) (0, []) = (dd, st) := by
    rw [hel, List.foldl_append]
    cases rooted with
    | true =>
      rw [hr rfl]
      simp only [List.replicate_zero, List.foldl_nil]
      rw [foldl_step_keep true st.reverse 0 [] (fun e he => hp e (List.mem_reverse.1 he))]
      simp
    | false =>
      rw [foldl_step_dotdots,
        foldl_step_keep false st.reverse _ [] (fun e he => hp e (List.mem_reverse.1 he))]
      simp
  rw [hct]
  unfold cleanSpec
  simp only [hc, hfold]
  rw [if_neg (by simpa using hne), ← hct]

/-- `Clean` is idempotent. -/
theorem cleanSpec_idem (p : List Char) : cleanSpec (cleanSpec p) = cleanSpec p := by
  cases p with
  | nil => rfl
  | cons c t =>
    obtain ⟨hp, hr⟩ := final_state c t
    conv_lhs => arg 1; unfold cleanSpec
    conv_rhs => unfold cleanSpec
    dsimp only
    split
    · rfl
    · rename_i hlen
      exact cleanSpec_rbuf _ _ _ hr hp (by simpa using hlen)

/-- A `/` followed by elements `.` only, at the end of a non-empty path, changes nothing:
`Clean(p + "/" + q) = Clean(p)` when `q` has no element other than `.`. -/
theorem cleanSpec_append_sep (p q : List Char) (hp : p ≠ [])
    (hq : ∀ e ∈ elems q, e = ['.']) : cleanSpec (p ++ '/' :: q) = cleanSpec p := by
  cases p with
  | nil => exact absurd rfl hp
  | cons c t =>
    have hfold : ∀ (es : List (List Char)) (s : Nat × List (List Char)),
        (∀ e ∈ es, e = ['.']) → es.foldl (step (c == '/')) s = s := by
      intro es
      induction es with
      | nil => intro s _; rfl
      | cons a es ih =>
        intro s h
        rw [List.foldl_cons, h a (List.mem_cons_self _ _), step_dot]
        exact ih s (fun e he => h e (List.mem_cons_of_mem _ he))
    have hel : elems (c :: (t ++ '/' :: q)) = elems (c :: t) ++ elems q := by
      rw [← List.cons_append, elems_append_sep]
    unfold cleanSpec
    simp only [List.cons_append, hel, List.foldl_append, hfold _ _ hq]

theorem cleanChars_idem (p : List Char) : cleanChars (cleanChars p) = cleanChars p := by
  rw [cleanChars_eq_cleanSpec, cleanChars_eq_cleanSpec, cleanSpec_idem]

theorem cleanChars_append_slash (p : List Char) (hp : p ≠ []) :
    cleanChars (p ++ ['/']) = cleanChars p := by
  rw [cleanChars_eq_cleanSpec, cleanChars_eq_cleanSpec]
  exact cleanSpec_append_sep p [] hp (by simp [elems])

theorem cleanChars_append_slash_dot (p : List Char) (hp : p ≠ []) :
    cleanChars (p ++ ['/', '.']) = cleanChars p := by
  rw [cleanChars_eq_cleanSpec, cleanChars_eq_cleanSpec]
  exact cleanSpec_append_sep p ['.'] hp (by simp [elems, atSep])

theorem cleanChars_ne_nil (p : List Char) : cleanChars p ≠ [] := by
  rw [cleanChars_eq_cleanSpec]
  cases p with
  | nil => simp [cleanSpec]
  | cons c t =>
    unfold cleanSpec
    dsimp only
    split
    · simp
    · rename_i h
      intro h2
      exact h (by rw [List.reverse_eq_nil_iff.1 h2]; rfl)

/-- `path.Clean` is idempotent. -/
theorem Clean_idem (p : String) : path.Clean (path.Clean p) = path.Clean p := by
  unfold path.Clean
  rw [cleanChars_idem]

theorem Clean_ne_empty (p : String) : path.Clean p ≠ "" := by
  unfold path.Clean
  intro h
  exact cleanChars_ne_nil p.data (congrArg String.data h)

theorem String.data_ne_nil {s : String} (h : s ≠ "") : s.data ≠ [] :=
  fun h2 => h (String.ext h2)

/-- `path.Join(p, "")` is `path.Clean(p)` for a non-empty `p`. -/
theorem Join_empty (p : String) (hp : p ≠ "") : path.Join [p, ""] = path.Clean p := by
  have hd := String.data_ne_nil hp
  have hlen : 0 < p.data.length := List.length_pos.2 hd
  have hsize : ¬ ((List.map String.length [p, ""]).sum = 0) := by
    simp only [List.map_cons, List.map_nil, List.sum_cons, List.sum_nil, String.length]
    omega
  unfold path.Join
  dsimp only
  rw [if_neg hsize]
  unfold path.Clean
  have hlen2 : 0 < p.length := hlen
  have hbuf : joinBuf [] [p, ""] = p.data ++ ['/'] := by
    simp [joinBuf, hp, hlen2]
  rw [hbuf, cleanChars_append_slash _ hd]

/-- `path.Join(p, ".")` is `path.Clean(p)` for a non-empty `p`. -/
theorem Join_dot (p : String) (hp : p ≠ "") : path.Join [p, "."] = path.Clean p := by
  have hd := String.data_ne_nil hp
  have hlen : 0 < p.data.length := List.length_pos.2 hd
  have hsize : ¬ ((List.map String.length [p, "."]).sum = 0) := by
    simp only [List.map_cons, List.map_nil, List.sum_cons, List.sum_nil, String.length]
    omega
  unfold path.Join
  dsimp only
  rw [if_neg hsize]
  unfold path.Clean
  have hlen2 : 0 < p.length := hlen
  have hbuf : joinBuf [] [p, "."] = p.data ++ ['/', '.'] := by
    simp [joinBuf, hp, hlen2]
  rw [hbuf, cleanChars_append_slash_dot _ hd]

/-- `GetPath("")` is the cleaned workspace path. -/
theorem GetPath_empty (w : workSpace) (hp : w.path ≠ "") :
    w.GetPath "" = path.Clean w.path := by
  unfold workSpace.GetPath
  have h1 : filepath.Clean "" = "." := by decide
  have h2 : strings.HasPrefix "." "../" = false := by decide
  simp only [h1, h2, Bool.false_eq_true, if_false]
  exact Join_dot w.path hp

end CleanTheory

section Execution

/-- Unfolding of `Execute`: both branches of `if err != nil` store and return the same values. -/
theorem Execute_eq (sh : Runner) (w : workSpace) (world : World) (ctx : Context) (shell : String) :
    w.Execute sh world ctx shell =
      ({ w with
          output := (sh world.fs ⟨ctx, w.path, w.env, "/bin/bash",
            ["-c", w.template ++ "\n" ++ shell]⟩).2.stdout,
          outErr := (sh world.fs ⟨ctx, w.path, w.env, "/bin/bash",
            ["-c", w.template ++ "\n" ++ shell]⟩).2.stderr },
        { fs := (sh world.fs ⟨ctx, w.path, w.env, "/bin/bash",
            ["-c", w.template ++ "\n" ++ shell]⟩).1,
          trace := world.trace ++ [Event.run ⟨ctx, w.path, w.env, "/bin/bash",
            ["-c", w.template ++ "\n" ++ shell]⟩] },
        (sh world.fs ⟨ctx, w.path, w.env, "/bin/bash",
            ["-c", w.template ++ "\n" ++ shell]⟩).2) := by
  unfold workSpace.Execute SimpleExecuteCommand
  dsimp only
  split <;> rename_i h <;> simp only [← h]

/-- Unfolding of `initGitWorkspace`: one call of `git init .`, whose error is returned. -/
theorem initGitWorkspace_eq (sh : Runner) (world : World) (dir : String) :
    initGitWorkspace sh world dir =
      ({ fs := (sh world.fs (gitInitLine dir)).1,
         trace := world.trace ++ [Event.run (gitInitLine dir)] },
        (sh world.fs (gitInitLine dir)).2.err) := by
  unfold initGitWorkspace SimpleExecuteCommand gitInitLine
  dsimp only
  split <;> rename_i h <;> simp only [← h]

/-- `Cleanup` assigns to no field of the workspace. -/
theorem Cleanup_fst (sys : System) (w : workSpace) (world : World) : (w.Cleanup sys world).1 = w := by
  unfold workSpace.Cleanup
  split <;> rfl

/-- `Create`, split at the directory check and at the result of the initial script. -/
theorem Create_eq (sys : System) (sh : Runner) (caller : Option String) (opt : createOption) (world : World) :
    Create sys sh caller opt world =
      match (Create.ensureDir sys opt world).2 with
      | some err => ((Create.ensureDir sys opt world).1, none, some err)
      | none =>
        match (Create.script sys sh caller opt world).2.2.err with
        | some err =>
          (((Create.script sys sh caller opt world).1.Cleanup sys
              (Create.script sys sh caller opt world).2.1).2.1,
            some (Create.script sys sh caller opt world).1, some err)
        | none =>
          ((Create.script sys sh caller opt world).2.1,
            some (Create.script sys sh caller opt world).1, none) := by
  unfold Create Create.script Create.ensureDir Create.scriptWorld Create.space
  cases caller <;> dsimp only <;> split <;> rename_i h <;> simp only [h] <;>
    split <;> rename_i h2 <;> simp only [h2, Cleanup_fst]

/-- The only calls of the directory check are `os.Stat` and, when that failed, `os.MkdirAll`. -/
theorem ensureDir_trace (sys : System) (opt : createOption) (world : World) :
    (Create.ensureDir sys opt world).1.trace = world.trace ++ [Event.stat opt.workspacePath] ∨
    (Create.ensureDir sys opt world).1.trace = world.trace ++
      [Event.stat opt.workspacePath, Event.mkdirAll opt.workspacePath 0o755] := by
  unfold Create.ensureDir
  split
  · right
    simp [os.MkdirAll, os.Stat]
  · left
    rfl

/-- When the directory check succeeds, `os.Stat` has found the directory or `os.MkdirAll` has
made it. -/
theorem ensureDir_ok (sys : System) (opt : createOption) (world : World)
    (h : (Create.ensureDir sys opt world).2 = none) :
    (os.Stat sys world opt.workspacePath).2 = none ∨
    (os.MkdirAll sys (os.Stat sys world opt.workspacePath).1 opt.workspacePath 0o755).2
      = none := by
  unfold Create.ensureDir at h
  split at h
  · exact Or.inr h
  · rename_i hs
    exact Or.inl hs

/-- The initial script runs on the workspace `Create.space` in the world `initGitWorkspace`
left. -/
theorem Create_script_eq (sys : System) (sh : Runner) (caller : Option String) (opt : createOption)
    (world : World) :
    Create.script sys sh caller opt world =
      ({ Create.space caller opt with
          output := (sh (Create.scriptWorld sh opt (Create.ensureDir sys opt world).1).fs
            (Create.scriptLine caller opt)).2.stdout,
          outErr := (sh (Create.scriptWorld sh opt (Create.ensureDir sys opt world).1).fs
            (Create.scriptLine caller opt)).2.stderr },
        { fs := (sh (Create.scriptWorld sh opt (Create.ensureDir sys opt world).1).fs
            (Create.scriptLine caller opt)).1,
          trace := (Create.scriptWorld sh opt (Create.ensureDir sys opt world).1).trace ++
            [Event.run (Create.scriptLine caller opt)] },
        (sh (Create.scriptWorld sh opt (Create.ensureDir sys opt world).1).fs
            (Create.scriptLine caller opt)).2) := by
  unfold Create.script
  rw [Execute_eq]
  cases caller <;> rfl

/-- `Create` returns a workspace exactly when the directory check succeeds, and then it is the
workspace the initial script left. -/
theorem Create_space_iff (sys : System) (sh : Runner) (caller : Option String) (opt : createOption)
    (world : World) (space : workSpace) :
    (Create sys sh caller opt world).2.1 = some space ↔
      (Create.ensureDir sys opt world).2 = none ∧ space = (Create.script sys sh caller opt world).1 := by
  rw [Create_eq]
  split <;> rename_i h
  · simp [h]
  · split <;> simp [h, eq_comm]

/-- The error `Create` returns once the directory check has succeeded is the error of the
initial script. -/
theorem Create_err_of_ensured (sys : System) (sh : Runner) (caller : Option String) (opt : createOption)
    (world : World) (h : (Create.ensureDir sys opt world).2 = none) :
    (Create sys sh caller opt world).2.2 = (Create.script sys sh caller opt world).2.2.err := by
  rw [Create_eq]
  simp only [h]
  split <;> rename_i h2 <;> simp [h2]

/-- C3. Template composition: `Execute` and `ExecuteWithStdin` each make exactly one call, and
the command line of that call is `/bin/bash -c (T ++ "\n" ++ S)`, with the workspace path as
working directory and the workspace environment as overlay; what they return is what the
runner, respectively the starter, returns for that command line. -/
theorem Execute_template_composition {κ : Type} (sh : Runner) (st : Starter κ) (w : workSpace)
    (world : World) (ctx : Context) (S : String) :
    (w.Execute sh world ctx S).2.1.trace = world.trace ++
      [Event.run { ctx := ctx, dir := w.path, env := w.GetEnvStr, name := "/bin/bash",
                   args := ["-c", w.GetTemplateStr ++ "\n" ++ S] }] ∧
    ((w.Execute sh world ctx S).2.1.fs, (w.Execute sh world ctx S).2.2) =
      sh world.fs { ctx := ctx, dir := w.path, env := w.GetEnvStr, name := "/bin/bash",
                    args := ["-c", w.GetTemplateStr ++ "\n" ++ S] } ∧
    (w.ExecuteWithStdin st world ctx S).1.trace = world.trace ++
      [Event.start { ctx := ctx, dir := w.path, env := w.GetEnvStr, enableStdin := true,
                     writers := (none, none), name := "/bin/bash",
                     args := ["-c", w.GetTemplateStr ++ "\n" ++ S] }] ∧
    ((w.ExecuteWithStdin st world ctx S).1.fs, (w.ExecuteWithStdin st world ctx S).2) =
      st world.fs { ctx := ctx, dir := w.path, env := w.GetEnvStr, enableStdin := true,
                    writers := (none, none), name := "/bin/bash",
                    args := ["-c", w.GetTemplateStr ++ "\n" ++ S] } := by
  rw [Execute_eq]
  exact ⟨rfl, rfl, rfl, rfl⟩

/-- C4. Single-slot last result: `Execute` returns exactly the `(stdout, stderr, error)` of the
runner, afterwards `GetOutputStr` and `GetOutErr` are that stdout and stderr, and nothing of the
outcome depends on what the two slots held before; the same holds for the run of the initial
script inside `Create`, whose returned workspace shows the streams of that run and whose
returned error is the error of that run. -/
theorem Execute_last_result (sys : System) (sh : Runner) (w : workSpace) (world : World) (ctx : Context)
    (S o e : String) (caller : Option String) (opt : createOption) (world0 : World) :
    (w.Execute sh world ctx S).2.2 =
      (sh world.fs { ctx := ctx, dir := w.path, env := w.env, name := "/bin/bash",
                     args := ["-c", w.template ++ "\n" ++ S] }).2 ∧
    (w.Execute sh world ctx S).1.GetOutputStr = (w.Execute sh world ctx S).2.2.stdout ∧
    (w.Execute sh world ctx S).1.GetOutErr = (w.Execute sh world ctx S).2.2.stderr ∧
    ({ w with output := o, outErr := e } : workSpace).Execute sh world ctx S
      = w.Execute sh world ctx S ∧
    (∀ space, (Create sys sh caller opt world0).2.1 = some space →
      (Create.script sys sh caller opt world0).2.2 =
        (sh (Create.scriptWorld sh opt (Create.ensureDir sys opt world0).1).fs
          (Create.scriptLine caller opt)).2 ∧
      space.GetOutputStr = (Create.script sys sh caller opt world0).2.2.stdout ∧
      space.GetOutErr = (Create.script sys sh caller opt world0).2.2.stderr ∧
      (Create sys sh caller opt world0).2.2 = (Create.script sys sh caller opt world0).2.2.err) := by
  refine ⟨?_, ?_, ?_, ?_, ?_⟩
  · rw [Execute_eq]
  · rw [Execute_eq]; rfl
  · rw [Execute_eq]; rfl
  · rw [Execute_eq, Execute_eq]
  · intro space h
    obtain ⟨hd, rfl⟩ := (Create_space_iff sys sh caller opt world0 space).1 h
    refine ⟨?_, ?_, ?_, Create_err_of_ensured sys sh caller opt world0 hd⟩
    · rw [Create_script_eq]
    · rw [Create_script_eq]; rfl
    · rw [Create_script_eq]; rfl

/-- C5, the claim as stated fails: with template `T` and construction script `init`, after
`Execute(ctx, "S")` the script slot does not hold the composed script `T ++ "\n" ++ "S"`; it
still holds `init`. -/
theorem GetShellStr_not_last_script :
    (sampleSpace.Execute helloRunner sampleWorld Context.Background "S").1.GetShellStr
      ≠ sampleSpace.GetTemplateStr ++ "\n" ++ "S" ∧
    (sampleSpace.Execute helloRunner sampleWorld Context.Background "S").1.GetShellStr
      = "init" := by
  decide

/-- C5, amended. The script slot is written at construction only: `Execute` leaves
`GetShellStr` as it was, and on the workspace `Create` returns it is the initial script as
configured, without the template, before and after any later `Execute`. -/
theorem GetShellStr_unchanged (sys : System) (sh : Runner) (w : workSpace) (world : World) (ctx : Context)
    (S : String) (caller : Option String) (opt : createOption) (world0 : World) :
    (w.Execute sh world ctx S).1.GetShellStr = w.GetShellStr ∧
    (∀ space, (Create sys sh caller opt world0).2.1 = some space →
      space.GetShellStr = opt.customShell ∧
      (space.Execute sh world ctx S).1.GetShellStr = opt.customShell) := by
  have key : ∀ (v : workSpace) (wd : World) (c : Context) (T : String),
      (v.Execute sh wd c T).1.GetShellStr = v.GetShellStr := by
    intro v wd c T
    rw [Execute_eq]; rfl
  refine ⟨key _ _ _ _, ?_⟩
  intro space h
  obtain ⟨_, rfl⟩ := (Create_space_iff sys sh caller opt world0 space).1 h
  have h1 : (Create.script sys sh caller opt world0).1.GetShellStr = opt.customShell := by
    unfold Create.script
    rw [key]
    cases caller <;> rfl
  exact ⟨h1, by rw [key, h1]⟩

/-- `Cleanup` on a non-empty path is `os.RemoveAll` on it. -/
theorem Cleanup_of_path (sys : System) (w : workSpace) (world : World) (hp : w.path ≠ "") :
    w.Cleanup sys world = (w, os.RemoveAll sys world w.path) := by
  have : ¬ w.path.length = 0 := fun h0 => hp (String.ext (List.length_eq_zero.1 h0))
  unfold workSpace.Cleanup
  rw [if_neg this]

/-- `Cleanup` on the empty path makes no call. -/
theorem Cleanup_of_empty (sys : System) (w : workSpace) (world : World) (hp : w.path = "") :
    w.Cleanup sys world =
      (w, world, some "the workspace path invalid, please check and delete it manually") := by
  have : w.path.length = 0 := by rw [hp]; rfl
  unfold workSpace.Cleanup
  rw [if_pos this]

/-- C8. `Cleanup` on an empty path returns an error, makes no call and changes neither the file
system nor the workspace; on a non-empty path it is `os.RemoveAll` on that path, and the
workspace is unchanged. -/
theorem Cleanup_empty_path (sys : System) (w : workSpace) (world : World) :
    (w.path = "" → (w.Cleanup sys world).2.2 ≠ none ∧ (w.Cleanup sys world).2.1 = world ∧
      (w.Cleanup sys world).1 = w) ∧
    (w.path ≠ "" → (w.Cleanup sys world).2 = os.RemoveAll sys world w.path ∧
      (w.Cleanup sys world).1 = w) := by
  constructor
  · intro h
    rw [Cleanup_of_empty sys w world h]
    simp
  · intro h
    rw [Cleanup_of_path sys w world h]
    exact ⟨rfl, rfl⟩

/-- C8, an instance of each half: the empty path is refused, a non-empty path is removed. -/
theorem Cleanup_empty_path_witness :
    (({ path := "", env := [], template := "", customShell := "", output := "", outErr := "" }
        : workSpace).Cleanup smallSystem sampleWorld).2.1 = sampleWorld ∧
    (sampleSpace.Cleanup smallSystem sampleWorld).2
      = os.RemoveAll smallSystem sampleWorld "/tmp/ws" :=
  ⟨((Cleanup_empty_path smallSystem _ _).1 rfl).2.1,
   ((Cleanup_empty_path smallSystem _ _).2 (by decide)).1⟩

/-- `os.RemoveAll` records exactly one call. -/
theorem RemoveAll_trace (sys : System) (world : World) (name : String) :
    (os.RemoveAll sys world name).1.trace = world.trace ++ [Event.removeAll name] := by
  unfold os.RemoveAll
  split
  · rfl
  · split <;> rfl

/-- `Cleanup` makes no call or the one call `os.RemoveAll` on the path. -/
theorem Cleanup_trace (sys : System) (w : workSpace) (world : World) :
    (w.Cleanup sys world).2.1.trace = world.trace ∨
    (w.Cleanup sys world).2.1.trace = world.trace ++ [Event.removeAll w.path] := by
  unfold workSpace.Cleanup
  split
  · exact Or.inl rfl
  · exact Or.inr (RemoveAll_trace sys world w.path)

/-- The calls of `Create` after a directory check that succeeded: `git init`, the initial
script, and at most the removal that follows a failed script. -/
theorem Create_trace (sys : System) (sh : Runner) (caller : Option String)
    (opt : createOption) (world : World) (hd : (Create.ensureDir sys opt world).2 = none) :
    ∃ after : List Event, (after = [] ∨ after = [Event.removeAll opt.workspacePath]) ∧
      (Create sys sh caller opt world).1.trace = (Create.ensureDir sys opt world).1.trace ++
        [Event.run (gitInitLine opt.workspacePath), Event.run (Create.scriptLine caller opt)]
        ++ after := by
  have hscript : (Create.script sys sh caller opt world).2.1.trace =
      (Create.ensureDir sys opt world).1.trace ++
        [Event.run (gitInitLine opt.workspacePath), Event.run (Create.scriptLine caller opt)] := by
    rw [Create_script_eq]
    simp only [Create.scriptWorld, initGitWorkspace_eq, List.append_assoc,
      List.singleton_append]
  have hpath : (Create.script sys sh caller opt world).1.path = opt.workspacePath := by
    rw [Create_script_eq]; cases caller <;> rfl
  rw [Create_eq]
  simp only [hd]
  split
  · rcases Cleanup_trace sys (Create.script sys sh caller opt world).1
        (Create.script sys sh caller opt world).2.1 with hc | hc
    · exact ⟨[], Or.inl rfl, by rw [hc, hscript]; simp⟩
    · exact ⟨_, Or.inr rfl, by rw [hc, hscript, hpath]⟩
  · exact ⟨[], Or.inl rfl, by rw [hscript]; simp⟩

/-- C9. Caller entries: when `runtime.Caller` reports the file `fn`, the workspace `Create`
returns has `GetEnvStr() = E ++ ["CALLER=" ++ fn, "CALLER_DIR=" ++ filepath.Dir fn]` for the
configured list `E`. The calls `Create` itself has made are the directory check, `git init`,
the initial script with exactly this list as its environment, and at most the removal that
follows a failed script; the streams and the error `Create` hands back are what the runner
returned for that command line. Every later `Execute` on the workspace uses the same list and
leaves it as it is. -/
theorem Create_caller_env (sys : System) (sh : Runner) (fn : String) (opt : createOption)
    (world : World) (space : workSpace)
    (h : (Create sys sh (some fn) opt world).2.1 = some space) :
    space.GetEnvStr =
      opt.environments ++ ["CALLER=" ++ fn, "CALLER_DIR=" ++ filepath.Dir fn] ∧
    (∃ before after : List Event,
      (before = [Event.stat opt.workspacePath] ∨
        before = [Event.stat opt.workspacePath, Event.mkdirAll opt.workspacePath 0o755]) ∧
      (after = [] ∨ after = [Event.removeAll opt.workspacePath]) ∧
      (Create sys sh (some fn) opt world).1.trace = world.trace ++ before ++
        [Event.run { ctx := Context.WithTimeout Context.Background (3 * time.Second),
                     dir := opt.workspacePath, env := [], name := "git",
                     args := ["init", "."] },
         Event.run { ctx := Context.WithCancel Context.Background, dir := opt.workspacePath,
                     env := opt.environments ++
                       ["CALLER=" ++ fn, "CALLER_DIR=" ++ filepath.Dir fn],
                     name := "/bin/bash",
                     args := ["-c", opt.template ++ "\n" ++ opt.customShell] }] ++ after) ∧
    (∃ fs : FileSystem,
      space.GetOutputStr =
        (sh fs { ctx := Context.WithCancel Context.Background, dir := opt.workspacePath,
                 env := opt.environments ++
                   ["CALLER=" ++ fn, "CALLER_DIR=" ++ filepath.Dir fn],
                 name := "/bin/bash",
                 args := ["-c", opt.template ++ "\n" ++ opt.customShell] }).2.stdout ∧
      space.GetOutErr =
        (sh fs { ctx := Context.WithCancel Context.Background, dir := opt.workspacePath,
                 env := opt.environments ++
                   ["CALLER=" ++ fn, "CALLER_DIR=" ++ filepath.Dir fn],
                 name := "/bin/bash",
                 args := ["-c", opt.template ++ "\n" ++ opt.customShell] }).2.stderr ∧
      (Create sys sh (some fn) opt world).2.2 =
        (sh fs { ctx := Context.WithCancel Context.Background, dir := opt.workspacePath,
                 env := opt.environments ++
                   ["CALLER=" ++ fn, "CALLER_DIR=" ++ filepath.Dir fn],
                 name := "/bin/bash",
                 args := ["-c", opt.template ++ "\n" ++ opt.customShell] }).2.err) ∧
    (∀ (sh2 : Runner) (world2 : World) (ctx : Context) (S : String),
      (space.Execute sh2 world2 ctx S).2.1.trace = world2.trace ++
        [Event.run { ctx := ctx, dir := opt.workspacePath,
                     env := opt.environments ++
                       ["CALLER=" ++ fn, "CALLER_DIR=" ++ filepath.Dir fn],
                     name := "/bin/bash", args := ["-c", opt.template ++ "\n" ++ S] }] ∧
      (space.Execute sh2 world2 ctx S).1.GetEnvStr = space.GetEnvStr) := by
  obtain ⟨hd, rfl⟩ := (Create_space_iff sys sh (some fn) opt world space).1 h
  have henv : (opt.environments ++ ["CALLER=" ++ fn]) ++ ["CALLER_DIR=" ++ filepath.Dir fn]
      = opt.environments ++ ["CALLER=" ++ fn, "CALLER_DIR=" ++ filepath.Dir fn] := by simp
  have hline : Create.scriptLine (some fn) opt =
      { ctx := Context.WithCancel Context.Background, dir := opt.workspacePath,
        env := opt.environments ++ ["CALLER=" ++ fn, "CALLER_DIR=" ++ filepath.Dir fn],
        name := "/bin/bash", args := ["-c", opt.template ++ "\n" ++ opt.customShell] } := by
    simp only [Create.scriptLine, Create.space, henv]
  have herr := Create_err_of_ensured sys sh (some fn) opt world hd
  have htrace := Create_trace sys sh (some fn) opt world hd
  rw [Create_script_eq] at herr ⊢
  rw [hline] at herr htrace ⊢
  refine ⟨?_, ?_,
    ⟨(Create.scriptWorld sh opt (Create.ensureDir sys opt world).1).fs, rfl, rfl, herr⟩, ?_⟩
  · simp only [workSpace.GetEnvStr, Create.space, henv]
  · obtain ⟨after, hafter, ht⟩ := htrace
    rcases ensureDir_trace sys opt world with hb | hb
    · exact ⟨_, after, Or.inl rfl, hafter, by rw [ht, hb]; rfl⟩
    · exact ⟨_, after, Or.inr rfl, hafter, by rw [ht, hb]; rfl⟩
  · intro sh2 world2 ctx S
    rw [Execute_eq]
    simp only [workSpace.GetEnvStr, Create.space, henv, and_self]

/-- C9, an instance: created from `/src/a_test.go` with `E = ["K=v", "K=w"]`, the workspace
has the two caller entries after `E`, duplicates of `E` kept, and the initial script was run
with them. -/
theorem Create_caller_env_witness :
    (Create smallSystem helloRunner (some "/src/a_test.go") sampleOption sampleWorld).2.1.map
        workSpace.GetEnvStr
      = some ["K=v", "K=w", "CALLER=/src/a_test.go", "CALLER_DIR=/src"] ∧
    (Create smallSystem helloRunner (some "/src/a_test.go") sampleOption sampleWorld).1.trace
      = [Event.stat "/tmp/ws", Event.run (gitInitLine "/tmp/ws"),
         Event.run { ctx := Context.WithCancel Context.Background, dir := "/tmp/ws",
                     env := ["K=v", "K=w", "CALLER=/src/a_test.go", "CALLER_DIR=/src"],
                     name := "/bin/bash", args := ["-c", "T\ninit"] }] ∧
    ((Create.script smallSystem helloRunner (some "/src/a_test.go") sampleOption
        sampleWorld).1).GetEnvStr
      = ["K=v", "K=w"] ++ ["CALLER=" ++ "/src/a_test.go",
          "CALLER_DIR=" ++ filepath.Dir "/src/a_test.go"] :=
  ⟨by decide, by decide,
   (Create_caller_env smallSystem helloRunner "/src/a_test.go" sampleOption sampleWorld
      (Create.script smallSystem helloRunner (some "/src/a_test.go") sampleOption sampleWorld).1
      (by decide)).1⟩

/-- C6, the claim as stated fails: the directory `/tmp/ws` exists (so it is provisioned), the
initial script fails, `Create` returns the error of the script, and the directory is still
there when `Create` returns, because the system refused the removal and `Create` drops the
result of `Cleanup`. -/
theorem Create_failed_script_leaves_directory :
    (Create.ensureDir smallSystem sampleOption lockedWorld).2 = none ∧
    (Create.script smallSystem failingScript none sampleOption lockedWorld).2.2.err
      = some "exit status 1" ∧
    (Create smallSystem failingScript none sampleOption lockedWorld).2.2
      = some "exit status 1" ∧
    "/tmp/ws" ∈ (Create smallSystem failingScript none sampleOption lockedWorld).1.fs.entries ∧
    (os.Stat smallSystem (Create smallSystem failingScript none sampleOption lockedWorld).1
      "/tmp/ws").2 = none := by
  decide

/-- C6, amended. When the directory check succeeds and the initial script returns an error,
`Create` (a) returns that error, (b) has called `Cleanup` and dropped its result: for a
non-empty path `os.RemoveAll` on the workspace path is the last call `Create` makes, after the
initial script, and the world `Create` leaves is the one that call leaves, (c) returns a
workspace whose `GetOutputStr` and `GetOutErr` are the streams of the failed script. -/
theorem Create_failed_script (sys : System) (sh : Runner) (caller : Option String)
    (opt : createOption) (world : World) (err : Error)
    (hd : (Create.ensureDir sys opt world).2 = none)
    (he : (Create.script sys sh caller opt world).2.2.err = some err) :
    (Create sys sh caller opt world).2.2 = some err ∧
    (Create sys sh caller opt world).1 =
      ((Create.script sys sh caller opt world).1.Cleanup sys
        (Create.script sys sh caller opt world).2.1).2.1 ∧
    (opt.workspacePath ≠ "" →
      (Create sys sh caller opt world).1 =
        (os.RemoveAll sys (Create.script sys sh caller opt world).2.1 opt.workspacePath).1 ∧
      (Create sys sh caller opt world).1.trace = (Create.ensureDir sys opt world).1.trace ++
        [Event.run (gitInitLine opt.workspacePath), Event.run (Create.scriptLine caller opt),
         Event.removeAll opt.workspacePath]) ∧
    (∃ space, (Create sys sh caller opt world).2.1 = some space ∧
      space.GetOutputStr = (Create.script sys sh caller opt world).2.2.stdout ∧
      space.GetOutErr = (Create.script sys sh caller opt world).2.2.stderr) := by
  have hpath : (Create.script sys sh caller opt world).1.path = opt.workspacePath := by
    rw [Create_script_eq]; cases caller <;> rfl
  have hw : (Create sys sh caller opt world).1 =
      ((Create.script sys sh caller opt world).1.Cleanup sys
        (Create.script sys sh caller opt world).2.1).2.1 := by
    rw [Create_eq]
    simp only [hd, he]
  refine ⟨?_, hw, ?_, ?_⟩
  · rw [Create_err_of_ensured sys sh caller opt world hd, he]
  · intro hp
    have hclean : ((Create.script sys sh caller opt world).1.Cleanup sys
        (Create.script sys sh caller opt world).2.1).2 =
        os.RemoveAll sys (Create.script sys sh caller opt world).2.1 opt.workspacePath := by
      rw [Cleanup_of_path _ _ _ (by rw [hpath]; exact hp), hpath]
    have hw2 : (Create sys sh caller opt world).1 =
        (os.RemoveAll sys (Create.script sys sh caller opt world).2.1 opt.workspacePath).1 := by
      rw [hw, hclean]
    refine ⟨hw2, ?_⟩
    rw [hw2, RemoveAll_trace, Create_script_eq]
    simp only [Create.scriptWorld, initGitWorkspace_eq, List.append_assoc,
      List.singleton_append, List.cons_append, List.nil_append]
  · refine ⟨(Create.script sys sh caller opt world).1,
      (Create_space_iff sys sh caller opt world _).2 ⟨hd, rfl⟩, ?_, ?_⟩
    · rw [Create_script_eq]; rfl
    · rw [Create_script_eq]; rfl

/-- C6, amended, an instance: the script fails, `os.RemoveAll` is the last call. -/
theorem Create_failed_script_witness :
    (Create smallSystem failingScript none sampleOption sampleWorld).2.2
      = some "exit status 1" ∧
    (Create smallSystem failingScript none sampleOption sampleWorld).1.trace =
      [Event.stat "/tmp/ws", Event.run (gitInitLine "/tmp/ws"),
       Event.run (Create.scriptLine none sampleOption), Event.removeAll "/tmp/ws"] ∧
    (Create smallSystem failingScript none sampleOption sampleWorld).1 =
      ((Create.script smallSystem failingScript none sampleOption sampleWorld).1.Cleanup
        smallSystem
        (Create.script smallSystem failingScript none sampleOption sampleWorld).2.1).2.1 :=
  ⟨by decide, by decide,
   (Create_failed_script smallSystem failingScript none sampleOption sampleWorld
      "exit status 1" (by decide) (by decide)).2.1⟩

/-- C10, the claim as stated fails: `git init` fails, the initial script succeeds, and `Create`
returns a workspace with a nil error. -/
theorem Create_succeeds_though_git_init_failed :
    (Create smallSystem failingGit none sampleOption sampleWorld).2.2 = none ∧
    (Create smallSystem failingGit none sampleOption sampleWorld).2.1 ≠ none ∧
    Event.run (gitInitLine "/tmp/ws") ∈
      (Create smallSystem failingGit none sampleOption sampleWorld).1.trace ∧
    (initGitWorkspace failingGit (Create.ensureDir smallSystem sampleOption sampleWorld).1
      "/tmp/ws").2 = some "exec: git: not found" := by
  decide

/-- C10, amended. Whenever `Create` returns a nil error, the directory had been ensured
(`os.Stat` found it or `os.MkdirAll` made it) when `initGitWorkspace` was called, the calls
`Create` made are `os.Stat` (and `os.MkdirAll` when it failed), then `git init .` in the
workspace directory, then the initial script, in this order and nothing else; the initial
script returned no error. The result of `git init` is dropped: nothing is claimed about it, and
`Create` returns the error of the initial script whatever `git init` did. -/
theorem Create_git_init_order (sys : System) (sh : Runner) (caller : Option String)
    (opt : createOption) (world : World) (h : (Create sys sh caller opt world).2.2 = none) :
    ((os.Stat sys world opt.workspacePath).2 = none ∨
      (os.MkdirAll sys (os.Stat sys world opt.workspacePath).1 opt.workspacePath 0o755).2
        = none) ∧
    ((Create.ensureDir sys opt world).1.trace = world.trace ++ [Event.stat opt.workspacePath] ∨
      (Create.ensureDir sys opt world).1.trace = world.trace ++
        [Event.stat opt.workspacePath, Event.mkdirAll opt.workspacePath 0o755]) ∧
    (Create sys sh caller opt world).1.trace = (Create.ensureDir sys opt world).1.trace ++
      [Event.run { ctx := Context.WithTimeout Context.Background (3 * time.Second),
                   dir := opt.workspacePath, env := [], name := "git", args := ["init", "."] },
       Event.run (Create.scriptLine caller opt)] ∧
    (Create.scriptWorld sh opt (Create.ensureDir sys opt world).1).fs =
      (sh (Create.ensureDir sys opt world).1.fs (gitInitLine opt.workspacePath)).1 ∧
    (Create.script sys sh caller opt world).2.2.err = none ∧
    (Create sys sh caller opt world).2.2 = (Create.script sys sh caller opt world).2.2.err := by
  have hd : (Create.ensureDir sys opt world).2 = none := by
    rw [Create_eq] at h
    split at h
    · simp at h
    · assumption
  have hs : (Create.script sys sh caller opt world).2.2.err = none := by
    rw [Create_err_of_ensured sys sh caller opt world hd] at h
    exact h
  refine ⟨ensureDir_ok sys opt world hd, ensureDir_trace sys opt world, ?_, ?_, hs,
    Create_err_of_ensured sys sh caller opt world hd⟩
  · rw [Create_eq]
    simp only [hd, hs]
    rw [Create_script_eq]
    simp only [Create.scriptWorld, initGitWorkspace_eq, gitInitLine, List.append_assoc,
      List.singleton_append]
  · simp only [Create.scriptWorld, initGitWorkspace_eq]

/-- C10, amended, an instance: `git init` fails, and the calls are still stat, git init,
script. -/
theorem Create_git_init_order_witness :
    (Create smallSystem failingGit none sampleOption sampleWorld).1.trace =
      [Event.stat "/tmp/ws", Event.run (gitInitLine "/tmp/ws"),
       Event.run (Create.scriptLine none sampleOption)] ∧
    ((os.Stat smallSystem sampleWorld sampleOption.workspacePath).2 = none ∨
      (os.MkdirAll smallSystem (os.Stat smallSystem sampleWorld sampleOption.workspacePath).1
        sampleOption.workspacePath 0o755).2 = none) :=
  ⟨by decide,
   (Create_git_init_order smallSystem failingGit none sampleOption sampleWorld (by decide)).1⟩

end Execution

section SmallSystem

/-! ### The small system keeps the contract of `os.RemoveAll` -/

theorem beneath_self (root : String) : beneath root root = true := by
  simp [beneath]

/-- Where a name resolves to does not depend on which entries exist. -/
theorem walk_eq_of_some (E E' : List String) :
    ∀ (es st r r' : List (List Char)),
      walk E es st = some r → walk E' es st = some r' → r = r' := by
  intro es
  induction es with
  | nil =>
    intro st r r' h h'
    simp only [walk, Option.some.injEq] at h h'
    rw [← h, ← h']
  | cons e es ih =>
    intro st r r' h h'
    rw [walk] at h h'
    by_cases h1 : e = ['.']
    · rw [if_pos h1] at h h'
      exact ih st r r' h h'
    · rw [if_neg h1] at h h'
      by_cases h2 : e = ['.', '.']
      · rw [if_pos h2] at h h'
        exact ih st.tail r r' h h'
      · rw [if_neg h2] at h h'
        by_cases hc : es = [] ∨ E.contains (rootName (e :: st)) = true
        · by_cases hc' : es = [] ∨ E'.contains (rootName (e :: st)) = true
          · rw [if_pos hc] at h
            rw [if_pos hc'] at h'
            exact ih (e :: st) r r' h h'
          · rw [if_neg hc'] at h'
            exact absurd h' (by simp)
        · rw [if_neg hc] at h
          exact absurd h (by simp)

theorem allExist_tail {E : List String} {st : List (List Char)} (h : AllExist E st) :
    AllExist E st.tail := by
  cases st with
  | nil => exact h
  | cons e st => exact h.2

theorem present_of_allExist {fs : FileSystem} {st : List (List Char)}
    (h : AllExist fs.entries st) : present fs st = true := by
  cases st with
  | nil => rfl
  | cons e st =>
    unfold present
    rw [h.1]
    simp

/-- A name that resolves with more elements after it resolves to a directory that exists. -/
theorem walk_append (E : List String) :
    ∀ (es1 es2 st r : List (List Char)), es2 ≠ [] → AllExist E st →
      walk E (es1 ++ es2) st = some r → ∃ st1, walk E es1 st = some st1 ∧ AllExist E st1 := by
  intro es1
  induction es1 with
  | nil =>
    intro es2 st r _ hst _
    exact ⟨st, rfl, hst⟩
  | cons e es1 ih =>
    intro es2 st r hne hst h
    rw [List.cons_append, walk] at h
    rw [walk]
    by_cases h1 : e = ['.']
    · rw [if_pos h1] at h ⊢
      exact ih es2 st r hne hst h
    · rw [if_neg h1] at h ⊢
      by_cases h2 : e = ['.', '.']
      · rw [if_pos h2] at h ⊢
        exact ih es2 st.tail r hne (allExist_tail hst) h
      · rw [if_neg h2] at h ⊢
        have hne2 : es1 ++ es2 ≠ [] := by simp [hne]
        by_cases hc : es1 ++ es2 = [] ∨ E.contains (rootName (e :: st)) = true
        · have hex : E.contains (rootName (e :: st)) = true := by
            rcases hc with hc | hc
            · exact absurd hc hne2
            · exact hc
          rw [if_pos hc] at h
          rw [if_pos (Or.inr hex)]
          exact ih es2 (e :: st) r hne ⟨hex, hst⟩ h
        · rw [if_neg hc] at h
          exact absurd h (by simp)

theorem small_stat_cases (fs : FileSystem) (name : String) :
    small.stat fs name = none ∨ small.stat fs name = some "no such file or directory" := by
  unfold small.stat
  split
  · exact Or.inr rfl
  · split
    · split
      · exact Or.inl rfl
      · exact Or.inr rfl
    · exact Or.inr rfl

theorem small_stat_none (fs : FileSystem) (name : String) (h : small.stat fs name = none) :
    name ≠ "" ∧ ∃ st, walk fs.entries (elems name.data) [] = some st ∧ present fs st = true := by
  unfold small.stat at h
  split at h
  · simp at h
  · rename_i hne
    refine ⟨hne, ?_⟩
    split at h
    · rename_i st hw
      split at h
      · rename_i hp
        exact ⟨st, hw, hp⟩
      · simp at h
    · simp at h

theorem small_stat_of_walk (fs : FileSystem) (name : String) (hne : name ≠ "")
    (st : List (List Char)) (hw : walk fs.entries (elems name.data) [] = some st)
    (hp : present fs st = true) : small.stat fs name = none := by
  unfold small.stat
  rw [if_neg hne, hw]
  simp [hp]

/-- Nothing exists under a name that does not exist. -/
theorem small_stat_beneath (fs : FileSystem) (name q : String) (hne : name ≠ "")
    (h : small.stat fs name ≠ none) (hq : beneath name q = true) :
    small.stat fs q ≠ none := by
  intro hstat
  obtain ⟨hqne, r, hw, hp⟩ := small_stat_none fs q hstat
  unfold beneath at hq
  rcases Bool.or_eq_true _ _ ▸ hq with hq | hq
  · have : q = name := by simpa using hq
    rw [this] at hstat
    exact h hstat
  · by_cases hroot : name = "/"
    · apply h
      rw [hroot]
      have hel : elems "/".data = [] := by decide
      unfold small.stat
      rw [if_neg (by decide), hel]
      rfl
    · have hb : (name == "/") = false := by simpa using hroot
      rw [hb] at hq
      simp only [Bool.false_eq_true, if_false, String.data_append] at hq
      obtain ⟨t, ht⟩ := List.isPrefixOf_iff_prefix.1 hq
      have hdata : q.data = name.data ++ '/' :: t := by
        rw [← ht]
        simp
      rw [hdata, elems_append_sep] at hw
      by_cases ht0 : elems t = []
      · rw [ht0, List.append_nil] at hw
        exact h (small_stat_of_walk fs name hne r hw hp)
      · obtain ⟨st1, hw1, hex⟩ := walk_append fs.entries _ _ [] r ht0 trivial hw
        exact h (small_stat_of_walk fs name hne st1 hw1 (present_of_allExist hex))

/-- What a removal that returned nil has done in the small system: nothing, on a name that does
not exist, or it has removed the tree under the entry the name resolves to. -/
theorem small_removeAll_nil (fs : FileSystem) (name : String) (hne : name ≠ "")
    (h : (small.removeAll fs name).2 = none) :
    ((small.removeAll fs name).1 = fs ∧ small.stat fs name ≠ none) ∨
    ∃ st, walk fs.entries (elems name.data) [] = some st ∧ st ≠ [] ∧
      (small.removeAll fs name).1 =
        { fs with entries := fs.entries.filter fun e => !beneath (rootName st) e } := by
  unfold small.removeAll at h ⊢
  rw [if_neg hne] at h ⊢
  have hstat : small.stat fs name =
      match walk fs.entries (elems name.data) [] with
      | some st => if present fs st then none else some "no such file or directory"
      | none => some "no such file or directory" := by
    unfold small.stat
    rw [if_neg hne]
  cases hw : walk fs.entries (elems name.data) [] with
  | none =>
    rw [hw] at hstat
    left
    exact ⟨rfl, by rw [hstat]; simp⟩
  | some st =>
    rw [hw] at h hstat
    dsimp only at h hstat ⊢
    by_cases hp : present fs st = false
    · left
      rw [if_pos hp]
      refine ⟨rfl, ?_⟩
      rw [hstat, hp]
      simp
    · rw [if_neg hp] at h ⊢
      split at h
      · simp at h
      · split at h
        · simp at h
        · rename_i hden htop
          right
          refine ⟨st, rfl, ?_, ?_⟩
          · intro h0
            exact htop (Or.inl h0)
          · rw [if_neg hden, if_neg htop]

/-- After a removal that returned nil the name does not exist in the small system. -/
theorem small_removeAll_gone (fs : FileSystem) (name : String) (hne : name ≠ "")
    (h : (small.removeAll fs name).2 = none) :
    small.stat (small.removeAll fs name).1 name ≠ none := by
  rcases small_removeAll_nil fs name hne h with ⟨hfs, hstat⟩ | ⟨st, hw, hst, hfs⟩
  · rw [hfs]
    exact hstat
  · rw [hfs]
    intro hstat
    obtain ⟨_, st', hw', hp'⟩ := small_stat_none _ name hstat
    have heq := walk_eq_of_some _ _ _ _ _ _ hw' hw
    subst heq
    cases st' with
    | nil => exact hst rfl
    | cons e st' =>
      simp only [present, List.contains_eq_any_beq, Bool.or_eq_true, beq_iff_eq,
        List.any_eq_true, List.mem_filter, Bool.not_eq_true', reduceCtorEq, false_or] at hp'
      obtain ⟨x, ⟨_, hx⟩, hxe⟩ := hp'
      rw [hxe, beneath_self] at hx
      exact absurd hx (by simp)

/-- The small system keeps the documented contract of `os.RemoveAll`. -/
theorem smallSystem_removes : smallSystem.RemovesAsDocumented := by
  constructor
  · intro fs name hne hnil q hq
    have hgone : small.stat (small.removeAll fs name).1 name ≠ none :=
      small_removeAll_gone fs name hne hnil
    have hq' := small_stat_beneath _ name q hne hgone hq
    rcases small_stat_cases (small.removeAll fs name).1 q with h | h
    · exact absurd h hq'
    · exact ⟨_, h, rfl⟩
  · intro fs name e hstat _
    show (small.removeAll fs name).2 = none
    have hstat' : small.stat fs name = some e := hstat
    unfold small.removeAll
    by_cases hne : name = ""
    · rw [if_pos hne]
    · rw [if_neg hne]
      unfold small.stat at hstat'
      rw [if_neg hne] at hstat'
      cases hw : walk fs.entries (elems name.data) [] with
      | none => rfl
      | some st =>
        rw [hw] at hstat'
        dsimp only at hstat' ⊢
        by_cases hp : present fs st = false
        · rw [if_pos hp]
        · have hp' : present fs st = true := by simpa using hp
          rw [hp'] at hstat'
          simp at hstat'

end SmallSystem

section Paths

/-! ### `Cleanup` and `GetPath` -/

/-- On a cleaned, non-empty workspace path `GetPath("")` is the path itself. -/
theorem GetPath_empty_clean (w : workSpace) (hp : w.path ≠ "")
    (hclean : path.Clean w.path = w.path) : w.GetPath "" = w.path := by
  rw [GetPath_empty w hp, hclean]

/-- A nil result of `os.RemoveAll` on a non-empty name is the nil result of the system: the
name passed the guard on the final dot. -/
theorem RemoveAll_nil (sys : System) (world : World) (name : String) (hn : name ≠ "")
    (h : (os.RemoveAll sys world name).2 = none) :
    endsWithDot name = false ∧ (sys.removeAll world.fs name).2 = none ∧
    (os.RemoveAll sys world name).1.fs = (sys.removeAll world.fs name).1 := by
  unfold os.RemoveAll at h ⊢
  rw [if_neg hn] at h ⊢
  by_cases hdot : endsWithDot name = true
  · rw [if_pos hdot] at h
    simp at h
  · rw [if_neg hdot] at h ⊢
    exact ⟨by simpa using hdot, h, rfl⟩

/-- Past its guards `os.RemoveAll` returns what the system returns. -/
theorem RemoveAll_snd (sys : System) (world : World) (name : String) (hn : name ≠ "")
    (hdot : endsWithDot name = false) :
    (os.RemoveAll sys world name).2 = (sys.removeAll world.fs name).2 := by
  unfold os.RemoveAll
  rw [if_neg hn, hdot]
  rfl

/-- C7, the claim as stated fails: the workspace path `/tmp/ws/nope/..` is not empty, `nope`
does not exist, `Cleanup` returns nil and has removed nothing, and `GetPath("")`, which is the
cleaned path `/tmp/ws`, still exists. -/
theorem Cleanup_leaves_cleaned_path :
    detourSpace.path ≠ "" ∧
    (detourSpace.Cleanup smallSystem sampleWorld).2.2 = none ∧
    detourSpace.GetPath "" = "/tmp/ws" ∧
    (os.Stat smallSystem (detourSpace.Cleanup smallSystem sampleWorld).2.1
      (detourSpace.GetPath "")).2 = none ∧
    (detourSpace.Cleanup smallSystem sampleWorld).2.1.fs = sampleWorld.fs := by
  decide

/-- C7, amended. Cleanup ensures absence on a cleaned path: on a system that keeps the
documented contract of `os.RemoveAll`, for a workspace whose path is not empty and is its own
cleaned form, `GetPath("")` is that path, and when `Cleanup` returns nil, `os.Stat` on
`GetPath("")` and on every name under it fails with a not-exist error, and a second `Cleanup`
returns nil again. -/
theorem Cleanup_ensures_absence (sys : System) (hsys : sys.RemovesAsDocumented)
    (w : workSpace) (world : World) (hp : w.path ≠ "")
    (hclean : path.Clean w.path = w.path) (h : (w.Cleanup sys world).2.2 = none) :
    w.GetPath "" = w.path ∧
    (∃ e, (os.Stat sys (w.Cleanup sys world).2.1 (w.GetPath "")).2 = some e ∧
      sys.isNotExist e = true) ∧
    (∀ q : String, beneath (w.GetPath "") q = true →
      ∃ e, (os.Stat sys (w.Cleanup sys world).2.1 q).2 = some e ∧ sys.isNotExist e = true) ∧
    ((w.Cleanup sys world).1.Cleanup sys (w.Cleanup sys world).2.1).2.2 = none := by
  have hget := GetPath_empty_clean w hp hclean
  have hc : (w.Cleanup sys world).2 = os.RemoveAll sys world w.path := by
    rw [Cleanup_of_path sys w world hp]
  have hr : (os.RemoveAll sys world w.path).2 = none := by
    rw [← hc]; exact h
  obtain ⟨hdot, hnil, hfs⟩ := RemoveAll_nil sys world w.path hp hr
  have hw2 : (w.Cleanup sys world).2.1 = (os.RemoveAll sys world w.path).1 := by rw [hc]
  have hgone : ∀ q : String, beneath w.path q = true →
      ∃ e, (os.Stat sys (os.RemoveAll sys world w.path).1 q).2 = some e ∧
        sys.isNotExist e = true := by
    intro q hq
    have := hsys.1 world.fs w.path hp hnil q hq
    unfold os.Stat
    rw [hfs]
    exact this
  rw [Cleanup_fst, hw2, hget]
  refine ⟨rfl, hgone w.path (beneath_self _), hgone, ?_⟩
  obtain ⟨e, he, hne⟩ := hgone w.path (beneath_self _)
  have hstat : sys.stat (os.RemoveAll sys world w.path).1.fs w.path = some e := he
  have hnil2 := hsys.2 _ w.path e hstat hne
  rw [Cleanup_of_path sys w _ hp]
  exact (RemoveAll_snd sys _ w.path hp hdot).trans hnil2

/-- C7, amended, an instance: in the small system the workspace `/tmp/ws`, with an entry in it,
is removed and is absent afterwards. -/
theorem Cleanup_ensures_absence_witness :
    (sampleSpace.Cleanup smallSystem sampleWorld).2.1.fs.entries = ["/", "/tmp"] ∧
    sampleSpace.GetPath "" = sampleSpace.path ∧
    ((sampleSpace.Cleanup smallSystem sampleWorld).1.Cleanup smallSystem
      (sampleSpace.Cleanup smallSystem sampleWorld).2.1).2.2 = none :=
  ⟨by decide,
   (Cleanup_ensures_absence smallSystem smallSystem_removes sampleSpace sampleWorld
      (by decide) (by decide) (by decide)).1,
   (Cleanup_ensures_absence smallSystem smallSystem_removes sampleSpace sampleWorld
      (by decide) (by decide) (by decide)).2.2.2⟩

/-- What `GetPath` does clamp: on a workspace with a non-empty path, every argument whose
cleaned form starts with `../` gives `GetPath("")`, the cleaned workspace path. -/
theorem GetPath_clamped (w : workSpace) (s : String) (hp : w.path ≠ "")
    (h : strings.HasPrefix (filepath.Clean s) "../" = true) :
    w.GetPath s = w.GetPath "" ∧ w.GetPath s = path.Clean w.path := by
  have h1 : w.GetPath s = path.Clean w.path := by
    unfold workSpace.GetPath
    simp only [h, if_true]
    exact Join_empty w.path hp
  exact ⟨by rw [h1, GetPath_empty w hp], h1⟩

theorem GetPath_clamped_witness :
    sampleSpace.GetPath "a/../../../etc" = sampleSpace.GetPath "" :=
  (GetPath_clamped sampleSpace "a/../../../etc" (by decide) (by decide)).1

/-! ### Where `GetPath` can point -/

theorem rbuf_rooted_ne_nil (dd : Nat) (st : List (List Char)) (hk : Kept st) :
    rbuf true dd st ≠ [] := by
  intro h
  have := base_length_le_rbuf true dd st (fun x hx => (hk x hx).1)
  rw [h] at this
  simp [base] at this

theorem rbuf_rooted_length (dd : Nat) (e : List Char) (st : List (List Char))
    (hk : Kept (e :: st)) : (rbuf true dd (e :: st)).length ≠ 1 := by
  have h1 := base_length_le_rbuf true dd st (fun x hx => (hk.tail x hx).1)
  have h2 := length_le_push true (rbuf true dd st) e (hk e (List.mem_cons_self _ _)).1
  rw [rbuf]
  simp only [base, if_true, List.length_singleton] at h1
  omega

/-- Elements kept after others of a rooted path are written after them and a `/`. -/
theorem rbuf_rooted_append (dd : Nat) (st1 : List (List Char)) (hk1 : Kept st1)
    (hne1 : st1 ≠ []) (st2 : List (List Char)) (hk2 : Kept st2) (hne2 : st2 ≠ []) :
    ∃ tail, (rbuf true dd (st2 ++ st1)).reverse = (rbuf true dd st1).reverse ++ '/' :: tail := by
  induction st2 with
  | nil => exact absurd rfl hne2
  | cons e st2 ih =>
    have hkall : Kept (st2 ++ st1) := by
      intro x hx
      rcases List.mem_append.1 hx with hx | hx
      · exact hk2.tail x hx
      · exact hk1 x hx
    have hlen : (rbuf true dd (st2 ++ st1)).length ≠ 1 := by
      cases st2 with
      | nil =>
        cases st1 with
        | nil => exact absurd rfl hne1
        | cons a st1 => exact rbuf_rooted_length dd a st1 hk1
      | cons a st2 => exact rbuf_rooted_length dd a (st2 ++ st1) hkall
    rw [List.cons_append, rbuf, push, if_pos (Or.inl ⟨rfl, hlen⟩), List.reverse_append,
      List.reverse_reverse, List.reverse_cons]
    by_cases h2 : st2 = []
    · subst h2
      exact ⟨e, by simp⟩
    · obtain ⟨tail, ht⟩ := ih hk2.tail h2
      exact ⟨tail ++ '/' :: e, by rw [ht]; simp⟩

/-- A cleaned path with a leading parent reference is `..` or starts with `../`. -/
theorem rbuf_dotdot_shape (n : Nat) (st : List (List Char)) :
    ∃ tail, (rbuf false (n + 1) st).reverse = '.' :: '.' :: tail ∧
      (tail = [] ∨ ∃ t, tail = '/' :: t) := by
  induction st with
  | nil =>
    simp only [rbuf, base, Bool.false_eq_true, if_false, dotdots_reverse]
    cases n with
    | zero => exact ⟨[], rfl, Or.inl rfl⟩
    | succ n => exact ⟨'/' :: dotdots (n + 1), dotdots_succ_succ n, Or.inr ⟨_, rfl⟩⟩
  | cons e st ih =>
    obtain ⟨tail, ht, hshape⟩ := ih
    have hlen : (rbuf false (n + 1) st).length ≠ 0 := by
      intro h0
      have : (rbuf false (n + 1) st).reverse = [] := by
        rw [List.length_eq_zero.1 h0]; rfl
      rw [ht] at this
      simp at this
    rw [rbuf, push, if_pos (Or.inr ⟨rfl, hlen⟩), List.reverse_append, List.reverse_reverse,
      List.reverse_cons, ht]
    refine ⟨tail ++ '/' :: e, by simp, Or.inr ?_⟩
    rcases hshape with rfl | ⟨t, rfl⟩
    · exact ⟨e, rfl⟩
    · exact ⟨t ++ '/' :: e, rfl⟩

/-- The shape of a cleaned path: `.`, or the text of a buffer of plain elements. -/
theorem cleanSpec_form (p : List Char) :
    cleanSpec p = ['.'] ∨
    ∃ (r : Bool) (dd : Nat) (st : List (List Char)),
      (r = true → dd = 0) ∧ (∀ e ∈ st, Plain e) ∧ rbuf r dd st ≠ [] ∧
      cleanSpec p = (rbuf r dd st).reverse := by
  cases p with
  | nil => exact Or.inl rfl
  | cons c t =>
    obtain ⟨hp, hr⟩ := final_state c t
    unfold cleanSpec
    dsimp only
    split
    · exact Or.inl rfl
    · rename_i hlen
      exact Or.inr ⟨_, _, _, hr, hp, by simpa using hlen, rfl⟩

theorem cleanSpec_cons (c : Char) (t : List Char) :
    cleanSpec (c :: t) =
      if (rbuf (c == '/') ((elems (c :: t)).foldl (step (c == '/')) (0, [])).1
          ((elems (c :: t)).foldl (step (c == '/')) (0, [])).2).length = 0 then ['.']
      else (rbuf (c == '/') ((elems (c :: t)).foldl (step (c == '/')) (0, [])).1
          ((elems (c :: t)).foldl (step (c == '/')) (0, [])).2).reverse := rfl

/-- Joining a cleaned path that is neither `..` nor starts with `../` to a cleaned rooted path
gives that rooted path or a path under it. -/
theorem cleanSpec_join_rooted (R : List Char) (t0 : List Char) (hR : R = '/' :: t0)
    (hclean : cleanSpec R = R) (cs : List Char)
    (hcs : cs = ['.'] ∨ ∃ (r : Bool) (dd : Nat) (st : List (List Char)),
      (r = true → dd = 0) ∧ (∀ e ∈ st, Plain e) ∧ rbuf r dd st ≠ [] ∧
      cs = (rbuf r dd st).reverse)
    (h1 : cs ≠ ['.', '.']) (h2 : ['.', '.', '/'].isPrefixOf cs = false) :
    cleanSpec (R ++ '/' :: cs) = R ∨
    (R ≠ ['/'] ∧ ∃ tail, cleanSpec (R ++ '/' :: cs) = R ++ '/' :: tail) ∨
    (R = ['/'] ∧ ∃ tail, cleanSpec (R ++ '/' :: cs) = '/' :: tail) := by
  subst hR
  -- the state after the root
  obtain ⟨hpR, hrR⟩ := final_state '/' t0
  have hddR := hrR rfl
  generalize hstR : ((elems ('/' :: t0)).foldl (step ('/' == '/')) (0, [])) = sR at hpR hddR
  have hb : ('/' == '/') = true := rfl
  rw [hb] at hstR
  have hsR : sR = (0, sR.2) := by
    rw [← hddR]
  have hRform : '/' :: t0 = (rbuf true 0 sR.2).reverse := by
    have := hclean
    rw [cleanSpec_cons] at this
    simp only [hb, hstR] at this
    rw [if_neg (by
      simpa using rbuf_rooted_ne_nil sR.1 sR.2 (Plain.kept hpR))] at this
    rw [← this, hddR]
  -- the elements of the argument
  have key : ∀ (es : List (List Char)), (∀ e ∈ es, Plain e) →
      elems (cs) = es.reverse ∨ (es = [] ∧ elems (cs) = [['.']]) →
      cleanSpec (('/' :: t0) ++ '/' :: cs) = (rbuf true 0 (es ++ sR.2)).reverse := by
    intro es hes hel
    have hfold : (elems (('/' :: t0) ++ '/' :: cs)).foldl (step true) (0, [])
        = (0, es ++ sR.2) := by
      rw [elems_append_sep, List.foldl_append, hstR]
      rcases hel with hel | ⟨rfl, hel⟩
      · rw [hel, hsR, foldl_step_keep true es.reverse 0 sR.2
          (fun e he => hes e (List.mem_reverse.1 he))]
        simp
      · rw [hel, List.foldl_cons, step_dot, List.foldl_nil, List.nil_append]
        exact hsR
    have hkall : Kept (es ++ sR.2) := by
      intro x hx
      rcases List.mem_append.1 hx with hx | hx
      · exact ⟨(hes x hx).1, (hes x hx).2.1⟩
      · exact ⟨(hpR x hx).1, (hpR x hx).2.1⟩
    show cleanSpec ('/' :: (t0 ++ '/' :: cs)) = _
    rw [cleanSpec_cons]
    simp only [hb]
    rw [show '/' :: (t0 ++ '/' :: cs) = ('/' :: t0) ++ '/' :: cs from rfl,
      hfold]
    rw [if_neg (by simpa using rbuf_rooted_ne_nil 0 (es ++ sR.2) hkall)]
  have finish : ∀ (es : List (List Char)), (∀ e ∈ es, Plain e) →
      cleanSpec (('/' :: t0) ++ '/' :: cs) = (rbuf true 0 (es ++ sR.2)).reverse →
      cleanSpec (('/' :: t0) ++ '/' :: cs) = '/' :: t0 ∨
      ('/' :: t0 ≠ ['/'] ∧ ∃ tail, cleanSpec (('/' :: t0) ++ '/' :: cs)
          = ('/' :: t0) ++ '/' :: tail) ∨
      ('/' :: t0 = ['/'] ∧ ∃ tail, cleanSpec (('/' :: t0) ++ '/' :: cs)
          = '/' :: tail) := by
    intro es hes hres
    by_cases hes0 : es = []
    · subst hes0
      left
      rw [hres, List.nil_append, ← hRform]
    · right
      by_cases hsR0 : sR.2 = []
      · right
        have hkall : Kept (es ++ sR.2) := by
          intro x hx
          rcases List.mem_append.1 hx with hx | hx
          · exact ⟨(hes x hx).1, (hes x hx).2.1⟩
          · exact ⟨(hpR x hx).1, (hpR x hx).2.1⟩
        obtain ⟨c, t, hct, hc⟩ := head_rbuf true 0 (es ++ sR.2) hkall
          (rbuf_rooted_ne_nil 0 _ hkall)
        have hc' : c = '/' := by simpa using hc
        refine ⟨?_, t, by rw [hres, hct, hc']⟩
        rw [hRform, hsR0]
        rfl
      · left
        obtain ⟨tail, ht⟩ := rbuf_rooted_append 0 sR.2 (Plain.kept hpR) hsR0 es
          (Plain.kept hes) hes0
        refine ⟨?_, tail, by rw [hres, ht, ← hRform]⟩
        intro h
        have hlen : (rbuf true 0 sR.2).length ≠ 1 := by
          cases hq : sR.2 with
          | nil => exact absurd hq hsR0
          | cons a st =>
            have hk := Plain.kept hpR
            rw [hq] at hk
            exact rbuf_rooted_length 0 a st hk
        apply hlen
        have := congrArg List.length hRform
        rw [h] at this
        simpa using this.symm
  rcases hcs with hdot | ⟨r, dd, st, hr, hp, hne, hform⟩
  · exact finish [] (by simp) (key [] (by simp) (Or.inr ⟨rfl, by rw [hdot]; rfl⟩))
  · have hdd : dd = 0 := by
      cases r with
      | true => exact hr rfl
      | false =>
        cases dd with
        | zero => rfl
        | succ n =>
          exfalso
          obtain ⟨tail, ht, hshape⟩ := rbuf_dotdot_shape n st
          rw [hform, ht] at h1 h2
          rcases hshape with rfl | ⟨t, rfl⟩
          · exact h1 rfl
          · simp [List.isPrefixOf] at h2
    subst hdd
    have hel : elems (cs) = st.reverse := by
      rw [hform, elems_rbuf r 0 (fun _ => rfl) st (Plain.kept hp)]
      simp
    exact finish st hp (key st hp (Or.inl hel))

/-- Confinement, and the one gap in it. On a workspace whose path is a cleaned absolute path,
`GetPath(s)` is the workspace path or a path under it for every `s` whose cleaned form is not
exactly `..`. -/
theorem GetPath_confined (w : workSpace) (s : String) (hclean : path.Clean w.path = w.path)
    (habs : strings.HasPrefix w.path "/" = true) (hs : filepath.Clean s ≠ "..") :
    beneath w.path (w.GetPath s) = true := by
  obtain ⟨t0, hR⟩ : ∃ t0, w.path.data = '/' :: t0 := by
    unfold strings.HasPrefix at habs
    cases hd : w.path.data with
    | nil => rw [hd] at habs; simp [List.isPrefixOf] at habs
    | cons c t =>
      rw [hd] at habs
      have : c = '/' := by
        have h := habs
        simp [List.isPrefixOf] at h
        exact h.symm
      exact ⟨t, by rw [this]⟩
  have hp : w.path ≠ "" := by
    intro h
    rw [h] at hR
    simp at hR
  by_cases hpre : strings.HasPrefix (filepath.Clean s) "../" = true
  · rw [(GetPath_clamped w s hp hpre).2, hclean]
    exact beneath_self _
  · have hpre' : strings.HasPrefix (filepath.Clean s) "../" = false := by simpa using hpre
    have hcne : filepath.Clean s ≠ "" := Clean_ne_empty s
    have hlen : 0 < w.path.length := List.length_pos.2 (String.data_ne_nil hp)
    have hsize : ¬ ((List.map String.length [w.path, filepath.Clean s]).sum = 0) := by
      simp only [List.map_cons, List.map_nil, List.sum_cons, List.sum_nil]
      omega
    have hbuf : joinBuf [] [w.path, filepath.Clean s] =
        w.path.data ++ '/' :: (filepath.Clean s).data := by
      simp [joinBuf, hp, hlen]
    have hget : w.GetPath s = ⟨cleanSpec (w.path.data ++ '/' :: cleanSpec s.data)⟩ := by
      unfold workSpace.GetPath
      simp only [hpre', Bool.false_eq_true, if_false]
      unfold path.Join
      dsimp only
      rw [if_neg hsize, hbuf]
      unfold path.Clean filepath.Clean path.Clean
      rw [cleanChars_eq_cleanSpec, cleanChars_eq_cleanSpec]
    have hcleanR : cleanSpec w.path.data = w.path.data := by
      have := congrArg String.data hclean
      unfold path.Clean at this
      rw [cleanChars_eq_cleanSpec] at this
      exact this
    have h1 : cleanSpec s.data ≠ ['.', '.'] := by
      intro h
      apply hs
      unfold filepath.Clean path.Clean
      rw [cleanChars_eq_cleanSpec, h]
    have h2 : ['.', '.', '/'].isPrefixOf (cleanSpec s.data) = false := by
      unfold strings.HasPrefix filepath.Clean path.Clean at hpre'
      rw [cleanChars_eq_cleanSpec] at hpre'
      exact hpre'
    have hcases := cleanSpec_join_rooted w.path.data t0 hR hcleanR (cleanSpec s.data)
      (cleanSpec_form s.data) h1 h2
    rw [hget]
    unfold beneath
    rcases hcases with h | ⟨hne, tail, h⟩ | ⟨heq, tail, h⟩
    · rw [h]
      simp
    · rw [h]
      have hroot : (w.path == "/") = false := by
        rw [beq_eq_false_iff_ne]
        intro hx
        apply hne
        rw [hx]
      simp [hroot]
    · rw [h]
      have hroot : w.path = "/" := String.ext heq
      simp [hroot, List.isPrefixOf]

theorem GetPath_confined_witness : beneath sampleSpace.path (sampleSpace.GetPath "a/../b/./c") = true :=
  GetPath_confined sampleSpace "a/../b/./c" (by decide) (by decide) (by decide)

/-- C1, at the failing input. In the workspace at `/tmp/ws`, `GetPath("..")` and
`GetPath("../")` are not `GetPath("")`: the cleaned argument is `..`, which does not start with
`../`, so it is joined to the root and names the directory above it. Arguments whose cleaned
form has something after the parent reference are clamped. -/
theorem GetPath_dotdot_not_clamped :
    sampleSpace.GetPath "" = "/tmp/ws" ∧
    sampleSpace.GetPath ".." = "/tmp" ∧
    sampleSpace.GetPath "../" = "/tmp" ∧
    sampleSpace.GetPath "../x/.." = "/tmp" ∧
    sampleSpace.GetPath "../../etc" = "/tmp/ws" ∧
    sampleSpace.GetPath "../x" = "/tmp/ws" := by
  decide

/-- C2, at the failing input. In the workspace at the clean absolute root `/tmp/ws`,
`GetPath("..")` is neither the root nor a path with the root and `/` in front: it is the parent
of the root. The same holds for `a/../..`, which does not even begin with a parent
reference. -/
theorem GetPath_escapes_root :
    sampleSpace.GetPath ".." ≠ sampleSpace.path ∧
    strings.HasPrefix (sampleSpace.GetPath "..") (sampleSpace.path ++ "/") = false ∧
    sampleSpace.GetPath ".." = filepath.Dir sampleSpace.path ∧
    sampleSpace.GetPath "a/../.." = filepath.Dir sampleSpace.path ∧
    path.Clean sampleSpace.path = sampleSpace.path := by
  decide

end Paths

end testspace
